import Mathlib

/-!
Shallow embedding of the ChatGPT-to-Qwen conversation converter
(`src/converter.js`) together with proofs about its specified behaviour.

JavaScript numbers are modelled as exact rationals plus the IEEE special
values `NaN` and the signed infinities; double-precision rounding is not
modelled (the converter only floors and scales timestamps).  JavaScript
loops that have no cycle guard in the source (`getPathToRoot`,
`findIncludedAncestor`, and the recursion of `traverseFromNode`) are given
an explicit fuel parameter: a `none` result means the loop has not finished
within the given number of iterations, and a result that is `none` for
every fuel corresponds to a non-terminating run of the source program.
-/

namespace ChatgptToQwen

/-- JavaScript numbers: `NaN`, signed infinity, or a finite value modelled
as an exact rational. -/
inductive JSNum where
  | nan : JSNum
  | inf (neg : Bool) : JSNum
  | fin (q : ℚ) : JSNum
deriving DecidableEq

/-- A JavaScript value as far as the converter's dynamic checks can
distinguish them: a number, a string, `null`, `undefined`, or any other
value (object, boolean, ...). -/
inductive JSVal where
  | num (n : JSNum) : JSVal
  | str (s : String) : JSVal
  | jnull : JSVal
  | undef : JSVal
  | other : JSVal
deriving DecidableEq

/-- JavaScript `Math.floor`: fixes `NaN` and the infinities, floors finite
values. -/
def jsFloor : JSNum → JSNum
  | JSNum.nan => JSNum.nan
  | JSNum.inf b => JSNum.inf b
  | JSNum.fin q => JSNum.fin ((Int.floor q : ℤ) : ℚ)

/-- Multiplication by 1000 on JavaScript numbers (`createdAt * 1000`). -/
def jsMul1000 : JSNum → JSNum
  | JSNum.nan => JSNum.nan
  | JSNum.inf b => JSNum.inf b
  | JSNum.fin q => JSNum.fin (q * 1000)

/-- Truthiness of a JavaScript number: `NaN` and `0` are falsy. -/
def jsNumTruthy : JSNum → Bool
  | JSNum.nan => false
  | JSNum.inf _ => true
  | JSNum.fin q => decide (q ≠ 0)

/-- JavaScript `a || b` on possibly-absent string values: an absent or
empty string is falsy and selects `b`. -/
def jstr : Option String → Option String → Option String
  | some s, b => if s = "" then b else some s
  | none, b => b

/-- JavaScript `a || null` on a possibly-absent string value. -/
def jstrOrNull (a : Option String) : Option String := jstr a none

/-- Whitespace skipped by `parseFloat` (ASCII white space and line
terminators). -/
def isJsWhitespace (c : Char) : Bool :=
  c = ' ' || c = '\t' || c = '\n' || c = '\r' || c.toNat = 11 || c.toNat = 12

/-- Longest prefix of decimal digits of a character list, with the rest. -/
def spanDigits : List Char → List Char × List Char
  | [] => ([], [])
  | c :: cs =>
    if c.isDigit then
      let (d, r) := spanDigits cs
      (c :: d, r)
    else ([], c :: cs)

/-- Value of a list of decimal digits. -/
def digitsToNat (ds : List Char) : Nat :=
  ds.foldl (fun acc c => acc * 10 + (c.toNat - 48)) 0

/-- Parse the decimal-literal part recognised by `parseFloat` after an
optional sign: digits, an optional fraction, and an optional exponent.
Returns `NaN` when no digit is found. -/
def parseDecimal (cs : List Char) (neg : Bool) : JSNum :=
  let ipr := spanDigits cs
  let fpr : List Char × List Char :=
    match ipr.2 with
    | '.' :: rest => spanDigits rest
    | _ => ([], ipr.2)
  if ipr.1.isEmpty && fpr.1.isEmpty then JSNum.nan
  else
    let mant : ℚ := (digitsToNat ipr.1 : ℚ) + (digitsToNat fpr.1 : ℚ) / ((10 : ℚ) ^ fpr.1.length)
    let e : ℤ :=
      match fpr.2 with
      | c :: rest =>
        if c = 'e' || c = 'E' then
          match rest with
          | '+' :: ds => (digitsToNat (spanDigits ds).1 : ℤ)
          | '-' :: ds => -(digitsToNat (spanDigits ds).1 : ℤ)
          | ds => (digitsToNat (spanDigits ds).1 : ℤ)
        else 0
      | [] => 0
    let v : ℚ := mant * (10 : ℚ) ^ e
    JSNum.fin (if neg then -v else v)

/-- Parse an optionally `Infinity`-valued literal after the sign. -/
def parseSigned (cs : List Char) (neg : Bool) : JSNum :=
  if cs.take 8 = "Infinity".toList then JSNum.inf neg else parseDecimal cs neg

/-- Model of the JavaScript `parseFloat` builtin: skip leading whitespace,
read an optional sign, then the longest decimal (or `Infinity`) literal
prefix; `NaN` when no literal prefix exists. -/
def parseFloat (s : String) : JSNum :=
  match s.toList.dropWhile isJsWhitespace with
  | '+' :: rest => parseSigned rest false
  | '-' :: rest => parseSigned rest true
  | rest => parseSigned rest false

/-- Mirrors `sanitizeTimestamp`: a number that is not `NaN` is floored
(infinities are preserved by `Math.floor`); a string is parsed with
`parseFloat` and floored when the parse is not `NaN`; every other value
yields `null`. -/
def sanitizeTimestamp : JSVal → Option JSNum
  | JSVal.num n => if n = JSNum.nan then none else some (jsFloor n)
  | JSVal.str s =>
    let parsed := parseFloat s
    if parsed = JSNum.nan then none else some (jsFloor parsed)
  | _ => none

/-- One element of `message.content.parts`: a plain string, an object with
an optional string `text` field and an `asset_pointer` field of the given
truthiness, or any other value (`null`, number, ...). -/
inductive ContentPart where
  | pstr (s : String) : ContentPart
  | pobj (text : Option String) (assetPointerTruthy : Bool) : ContentPart
  | pother : ContentPart
deriving DecidableEq

/-- The `message.content` object; `parts = none` models a missing or
non-array `parts` field. -/
structure ContentObj where
  parts : Option (List ContentPart)
deriving DecidableEq

/-- The message payload of a node.  `role` collapses
`message.author && message.author.role`; `model_slug` collapses
`message.metadata && message.metadata.model_slug`. -/
structure Message where
  id : Option String
  role : Option String
  content : Option ContentObj
  create_time : JSVal
  model_slug : Option String
deriving DecidableEq

/-- An entry of the conversation's node mapping.  `children = none` models
a missing or non-array `children` field. -/
structure Node where
  id : Option String
  parent : Option String
  children : Option (List String)
  message : Option Message
deriving DecidableEq

/-- The node mapping, as the ordered key/value list of the JavaScript
object; a `none` value models a `null`/falsy entry. -/
abbrev Mapping := List (String × Option Node)

/-- An input conversation record (the fields the converter reads). -/
structure Conversation where
  mapping : Mapping
  current_node : Option String
  create_time : JSVal
  update_time : JSVal
  title : Option String
  conversation_id : Option String
  convId : Option String
  default_model_slug : Option String
deriving DecidableEq

/-- Object property lookup in the node mapping (`mapping[id]`), flattening
falsy entries. -/
def mget : Mapping → String → Option Node
  | [], _ => none
  | (k, v) :: rest, key => if key = k then v else mget rest key

/-- The key list of the node mapping (`Object.keys(mapping)`). -/
def keysOf (m : Mapping) : List String := m.map Prod.fst

/-- Emission of one content part, mirroring the loop body of
`extractContent`: strings verbatim, object `text` fields verbatim, the
`"[Asset]"` placeholder for an asset pointer without text, nothing
otherwise. -/
def emitPart : ContentPart → Option String
  | ContentPart.pstr s => some s
  | ContentPart.pobj (some t) _ => some t
  | ContentPart.pobj none b => if b then some "[Asset]" else none
  | ContentPart.pother => none

/-- JavaScript `String.prototype.trim` restricted to ASCII whitespace. -/
def jsTrim (s : String) : String :=
  String.mk (((s.toList.dropWhile isJsWhitespace).reverse.dropWhile isJsWhitespace).reverse)

/-- Mirrors `extractContent`: empty string when the payload, its `content`
or an array `parts` is missing; otherwise the emitted fragments joined
with newlines and trimmed. -/
def extractContent : Option Message → String
  | none => ""
  | some m =>
    match m.content with
    | none => ""
    | some c =>
      match c.parts with
      | none => ""
      | some parts => jsTrim (String.intercalate "\n" (parts.filterMap emitPart))

/-- Mirrors `normalizeRole`: `"user"` and `"assistant"` map to themselves,
and the default branch returns `role || "assistant"`, so only a missing or
empty role defaults to `"assistant"`; any other role string is returned
unchanged. -/
def normalizeRole : Option String → String
  | some s =>
    if s = "user" then "user"
    else if s = "assistant" then "assistant"
    else if s = "" then "assistant" else s
  | none => "assistant"

/-- Capitalisation of one slug segment (`charAt(0).toUpperCase()` plus the
rest). -/
def capitalizePart (s : String) : String :=
  match s.toList with
  | [] => ""
  | c :: rest => String.mk (c.toUpper :: rest)

/-- Mirrors `formatModelName`: `null` for a falsy slug, otherwise the slug
split on `-`/`_` with each segment capitalised and joined by spaces. -/
def formatModelName (slug : Option String) : Option String :=
  match jstrOrNull slug with
  | none => none
  | some s =>
    some (String.intercalate " " ((s.split (fun c => c = '-' || c = '_')).map capitalizePart))

/-- One entry of an assistant message's `content_list`. -/
structure ContentListEntry where
  content : String
  phase : String
  status : String
  role : String
deriving DecidableEq

/-- An output message (the fields of `buildQwenMessage` relevant to the
conversion semantics; constant scaffolding fields are omitted). -/
structure QwenMessage where
  id : Option String
  role : String
  content : String
  parentId : Option String
  childrenIds : List String
  timestamp : Option JSNum
  model : Option String
  modelName : Option String
  models : List String
  content_list : List ContentListEntry
deriving DecidableEq

/-- Mirrors `buildQwenMessage`: the id falls back from `message.id` to
`node.id`, the model slug from `message.metadata.model_slug` to the
conversation's `default_model_slug`, and the user/assistant variants set
their distinct fields. -/
def buildQwenMessage (node : Node) (role : String) (text : String)
    (timestamp : Option JSNum) (conv : Conversation) : QwenMessage :=
  let msgId : Option String :=
    match node.message with
    | some m => m.id
    | none => none
  let outMsgId := jstr msgId node.id
  let defaultModel := jstrOrNull conv.default_model_slug
  let msgSlug : Option String :=
    match node.message with
    | some m => m.model_slug
    | none => none
  let modelSlug := jstr msgSlug defaultModel
  if role = "assistant" then
    { id := outMsgId
      role := "assistant"
      content := ""
      parentId := none
      childrenIds := []
      timestamp := timestamp
      model := jstrOrNull modelSlug
      modelName := formatModelName modelSlug
      models := []
      content_list := [{ content := text, phase := "answer", status := "finished", role := "assistant" }] }
  else
    { id := outMsgId
      role := "user"
      content := text
      parentId := none
      childrenIds := []
      timestamp := timestamp
      model := none
      modelName := none
      models :=
        match jstrOrNull modelSlug with
        | some s => [s]
        | none => []
      content_list := [] }

/-- Insertion-ordered set insertion used to model a JavaScript `Set`. -/
def addModel (acc : List String) (s : String) : List String :=
  if s ∈ acc then acc else acc ++ [s]

/-- Mirrors `collectModels`: an insertion-ordered, deduplicated union of
each assistant message's truthy `model` and the truthy entries of each
message's `models` array. -/
def collectModels (messages : List QwenMessage) : List String :=
  messages.foldl
    (fun acc m =>
      let acc1 :=
        if m.role = "assistant" then
          match m.model with
          | some s => if s = "" then acc else addModel acc s
          | none => acc
        else acc
      m.models.foldl (fun a s => if s = "" then a else addModel a s) acc1)
    []

/-- The output record's `meta` object; `timestamp = none` models an absent
field. -/
structure MetaOut where
  timestamp : Option JSNum
  tags : List String
deriving DecidableEq

/-- Mirrors `buildMeta`: the timestamp field carries `createdAt * 1000`
and is present exactly when that product is truthy (a non-`NaN`, non-zero
number). -/
def buildMeta (createdAt : Option JSNum) : MetaOut :=
  let ts : Option JSNum :=
    match createdAt with
    | some n => if n = JSNum.nan then none else some (jsMul1000 n)
    | none => none
  match ts with
  | some t => if jsNumTruthy t then { timestamp := some t, tags := [] } else { timestamp := none, tags := [] }
  | none => { timestamp := none, tags := [] }

/-- One step of the parent walk used by `findIncludedAncestor`:
`mapping[id] && mapping[id].parent`, then `|| null`. -/
def parentStep (m : Mapping) (id : String) : Option String :=
  match mget m id with
  | none => none
  | some nd =>
    match nd.parent with
    | none => none
    | some p => if p = "" then none else some p

/-- The full `parentId` chain walked from `s` until it exhausts, recorded
as the list of visited ids; `none` when the walk does not finish within
`fuel` iterations (a cyclic chain never finishes for any fuel). -/
def parentChainF (m : Mapping) (fuel : Nat) (s : Option String) : Option (List String) :=
  match s with
  | none => some []
  | some id =>
    if id = "" then some []
    else
      match fuel with
      | 0 => none
      | f + 1 => (parentChainF m f (parentStep m id)).map (fun l => id :: l)

/-- Mirrors `findRootNodes`: keys whose node is truthy and whose parent is
falsy or references a falsy mapping entry. -/
def findRootNodes (m : Mapping) : List String :=
  (keysOf m).filter (fun k =>
    match mget m k with
    | none => false
    | some nd =>
      match nd.parent with
      | none => true
      | some p => if p = "" then true else (mget m p).isNone)

/-- Mirrors the unguarded `while` loop of `getPathToRoot`: walk parent
links upward, collecting ids root-first; `none` when the loop does not
exit within `fuel` iterations (it never exits on a cyclic chain). -/
def getPathToRootF (fuel : Nat) (s : Option String) (m : Mapping) (acc : List String) :
    Option (List String) :=
  match s with
  | none => some acc
  | some id =>
    if id = "" then some acc
    else
      match mget m id with
      | none => some acc
      | some nd =>
        match fuel with
        | 0 => none
        | f + 1 => getPathToRootF f (jstrOrNull nd.parent) m (id :: acc)

/-- Mirrors the unguarded `while` loop of `findIncludedAncestor`: walk
parent links upward until an included id or a falsy id is reached; `none`
when the loop does not exit within `fuel` iterations. -/
def findIncludedAncestorF (fuel : Nat) (s : Option String) (included : List String)
    (m : Mapping) : Option (Option String) :=
  match s with
  | none => some none
  | some id =>
    if id = "" then some none
    else if id ∈ included then some (some id)
    else
      match fuel with
      | 0 => none
      | f + 1 => findIncludedAncestorF f (parentStep m id) included m

/-- The first-child `for` loop of `traverseFromNode`, abstracted over the
recursive call: try each child in order, keeping the first non-empty
traversal, threading the mutable visited set. -/
def childLoopAux (step : String → List String → Option (List String × List String)) :
    List String → List String → Option (List String × List String)
  | [], visited => some ([], visited)
  | c :: rest, visited =>
    match step c visited with
    | none => none
    | some (p, v2) =>
      match p with
      | [] => childLoopAux step rest v2
      | _ => some (p, v2)

/-- Mirrors `traverseFromNode` with the shared mutable visited set made
explicit: the returned pair is the emitted sequence and the final visited
set.  The source recursion always terminates (the visited set grows), so
`fuel` only bounds the recursion depth. -/
def traverseFromNodeF (fuel : Nat) (nodeId : Option String) (m : Mapping)
    (visited : List String) : Option (List String × List String) :=
  match fuel with
  | 0 => none
  | f + 1 =>
    match nodeId with
    | none => some ([], visited)
    | some nid =>
      if nid = "" then some ([], visited)
      else if nid ∈ visited then some ([], visited)
      else
        let visited2 := nid :: visited
        match mget m nid with
        | none => some ([], visited2)
        | some nd =>
          match nd.children with
          | some (c :: cs) =>
            match childLoopAux (fun ch v => traverseFromNodeF f (some ch) m v) (c :: cs) visited2 with
            | none => none
            | some (p, v2) => some (nid :: p, v2)
          | _ => some ([nid], visited2)

/-- First-seen-order deduplication (`Array.from(new Set(result))`). -/
def dedupFirst (l : List String) : List String :=
  l.foldl (fun acc x => if x ∈ acc then acc else acc ++ [x]) []

/-- The `for` loop of `expandPath`: push each ancestor-path node, and at
the first node with a non-empty children array descend into its first
child (with the pushed nodes as the initial visited set) and stop. -/
def expandLoopF (fuel : Nat) (path : List String) (m : Mapping) (acc : List String) :
    Option (List String) :=
  match path with
  | [] => some acc
  | nodeId :: rest =>
    let acc2 := acc ++ [nodeId]
    match mget m nodeId with
    | some nd =>
      match nd.children with
      | some (c :: _) =>
        match traverseFromNodeF fuel (some c) m acc2 with
        | none => none
        | some (p, _) => some (acc2 ++ p)
      | _ => expandLoopF fuel rest m acc2
    | none => expandLoopF fuel rest m acc2

/-- Mirrors `expandPath`: run the loop and deduplicate preserving
first-seen order. -/
def expandPathF (fuel : Nat) (path : List String) (m : Mapping) : Option (List String) :=
  (expandLoopF fuel path m []).map dedupFirst

/-- Mirrors `reconstructMessagePath`: empty for an empty mapping or no
roots; the expanded root path of a declared, truthy, mapped current node;
otherwise a first-child traversal from the first root. -/
def reconstructMessagePathF (fuel : Nat) (conv : Conversation) : Option (List String) :=
  let m := conv.mapping
  if m.isEmpty then some []
  else
    match findRootNodes m with
    | [] => some []
    | r :: _ =>
      match conv.current_node with
      | some cn =>
        if cn ≠ "" ∧ (mget m cn).isSome then
          match getPathToRootF fuel (some cn) m [] with
          | none => none
          | some p => expandPathF fuel p m
        else (traverseFromNodeF fuel (some r) m []).map Prod.fst
      | none => (traverseFromNodeF fuel (some r) m []).map Prod.fst

/-- The per-id inclusion test of `transformConversation`'s first loop:
keep an id whose node has a message whose role normalizes to `"user"` or
`"assistant"` and whose extracted content is non-empty, projecting the
survivor through `buildQwenMessage` keyed by its mapping key. -/
def filterNode (conv : Conversation) (nodeId : String) : Option (String × QwenMessage) :=
  match mget conv.mapping nodeId with
  | none => none
  | some node =>
    match node.message with
    | none => none
    | some msg =>
      let role := normalizeRole msg.role
      if role = "user" ∨ role = "assistant" then
        let text := extractContent (some msg)
        if text = "" then none
        else some (nodeId, buildQwenMessage node role text (sanitizeTimestamp msg.create_time) conv)
      else none

/-- The first loop of `transformConversation` over the reconstructed path:
the ordered surviving nodes with their projected messages. -/
def filterNodes (conv : Conversation) (ids : List String) : List (String × QwenMessage) :=
  ids.filterMap (filterNode conv)

/-- The raw `node.parent` of a mapping key (the start of the ancestor
walk). -/
def rawParent (m : Mapping) (k : String) : Option String :=
  match mget m k with
  | some nd => nd.parent
  | none => none

/-- Resolve the parents of the listed survivors with
`findIncludedAncestor`; `none` when some walk does not finish within
`fuel` iterations. -/
def resolveListF (fuel : Nat) (m : Mapping) (included : List String) :
    List String → Option (List (String × Option String))
  | [] => some []
  | k :: rest =>
    match findIncludedAncestorF fuel (rawParent m k) included m with
    | none => none
    | some r =>
      match resolveListF fuel m included rest with
      | none => none
      | some rs => some ((k, r) :: rs)

/-- Resolve every survivor's parent (the first re-linking loop). -/
def resolveAllF (fuel : Nat) (m : Mapping) (included : List String) :
    Option (List (String × Option String)) :=
  resolveListF fuel m included included

/-- Association-list lookup keyed by strings. -/
def alookup {α : Type} : List (String × α) → String → Option α
  | [], _ => none
  | (k, v) :: rest, key => if key = k then some v else alookup rest key

/-- Append `c` to the children list of every entry keyed `p`
(`parent.childrenIds.push(nodeId)`). -/
def pushChild (acc : List (String × List String)) (p c : String) : List (String × List String) :=
  acc.map (fun kv => if kv.1 = p then (kv.1, kv.2 ++ [c]) else kv)

/-- One iteration of the second re-linking loop: push the survivor into
its resolved parent's children list when that parent exists in the
message map. -/
def childAccumStep (included : List String) (acc : List (String × List String))
    (entry : String × Option String) : List (String × List String) :=
  match entry.2 with
  | some p => if p ∈ included then pushChild acc p entry.1 else acc
  | none => acc

/-- The second re-linking loop over all survivors, starting from the reset
(empty) children lists. -/
def childAccum (included : List String) (resolved : List (String × Option String)) :
    List (String × List String) :=
  resolved.foldl (childAccumStep included) (included.map (fun k => (k, [])))

/-- The two re-linking loops of `transformConversation`: assign each
survivor's resolved parent and rebuild the children lists. -/
def relinkNodesF (fuel : Nat) (conv : Conversation) (pairs : List (String × QwenMessage)) :
    Option (List (String × QwenMessage)) :=
  let included := pairs.map Prod.fst
  match resolveAllF fuel conv.mapping included with
  | none => none
  | some resolved =>
    let childMap := childAccum included resolved
    some (pairs.map (fun kv =>
      (kv.1,
        { kv.2 with
          parentId := (alookup resolved kv.1).join
          childrenIds := (alookup childMap kv.1).getD [] })))

/-- Path reconstruction followed by filtering, keyed by mapping key. -/
def filteredPairsF (fuel : Nat) (conv : Conversation) : Option (List (String × QwenMessage)) :=
  (reconstructMessagePathF fuel conv).map (filterNodes conv)

/-- The filtered, re-linked survivors of a conversation, keyed by mapping
key. -/
def relinkedPairsF (fuel : Nat) (conv : Conversation) : Option (List (String × QwenMessage)) :=
  match filteredPairsF fuel conv with
  | none => none
  | some pairs => relinkNodesF fuel conv pairs

/-- The output conversation record (the fields the converter emits, with
the `chat.history`/`chat.models` copies flattened into named fields). -/
structure OutputConversation where
  id : String
  user_id : String
  title : String
  historyMessages : List (Option String × QwenMessage)
  histCurrentId : Option String
  histCurrentResponseIds : List String
  chatModels : Option (List String)
  messages : List QwenMessage
  updated_at : Option JSNum
  created_at : Option JSNum
  meta : MetaOut
  currentResponseIds : List String
  currentId : Option String
  models : Option (List String)
deriving DecidableEq

/-- JavaScript object property assignment keyed by a message id: replace
in place when the key exists, append otherwise. -/
def objSet (o : List (Option String × QwenMessage)) (k : Option String) (v : QwenMessage) :
    List (Option String × QwenMessage) :=
  if o.any (fun kv => decide (kv.1 = k)) then
    o.map (fun kv => if kv.1 = k then (kv.1, v) else kv)
  else o ++ [(k, v)]

/-- The last assistant message of the projected list
(`[...messages].reverse().find(...)`). -/
def lastAssistantOf (messages : List QwenMessage) : Option QwenMessage :=
  messages.reverse.find? (fun m => decide (m.role = "assistant"))

/-- The `currentId` of the assembled record:
`(lastAssistant || lastMessage)?.id || null`. -/
def currentIdOf (messages : List QwenMessage) : Option String :=
  jstrOrNull
    ((match lastAssistantOf messages with
      | some a => some a
      | none => messages.getLast?).bind (fun m => m.id))

/-- The `currentResponseIds` of the assembled record:
`currentId && lastAssistant ? [currentId] : []`. -/
def currentResponseIdsOf (messages : List QwenMessage) : List String :=
  match currentIdOf messages, lastAssistantOf messages with
  | some c, some _ => [c]
  | _, _ => []

/-- The Conversation Assembler: combine the final message list with the
derived pointers, the model list, the timestamps and the metadata into
the output record. -/
def assembleOutput (conv : Conversation) (index : Nat) (messages : List QwenMessage) :
    OutputConversation :=
  let createdAt := sanitizeTimestamp conv.create_time
  let updatedAt := sanitizeTimestamp
    (match conv.update_time with
     | JSVal.undef => conv.create_time
     | v => v)
  let currentId := currentIdOf messages
  let currentResponseIds := currentResponseIdsOf messages
  let chatModels := collectModels messages
  { id := (jstr conv.conversation_id (jstrOrNull conv.convId)).getD
      ("conversation-" ++ toString index)
    user_id := "00000000-0000-0000-0000-000000000000"
    title := (jstrOrNull conv.title).getD "Untitled Conversation"
    historyMessages := messages.foldl (fun acc m => objSet acc m.id m) []
    histCurrentId := currentId
    histCurrentResponseIds := currentResponseIds
    chatModels := if chatModels.isEmpty then none else some chatModels
    messages := messages
    updated_at := updatedAt
    created_at := createdAt
    meta := buildMeta createdAt
    currentResponseIds := currentResponseIds
    currentId := currentId
    models := if chatModels.isEmpty then none else some chatModels }

/-- Mirrors `transformConversation`: reconstruct the path, filter,
re-link, then assemble the output record.  `none` means one of the
unguarded source loops did not finish within `fuel` iterations. -/
def transformConversationF (fuel : Nat) (conv : Conversation) (index : Nat) :
    Option OutputConversation :=
  match relinkedPairsF fuel conv with
  | none => none
  | some pairs => some (assembleOutput conv index (pairs.map Prod.snd))

/-- Fuel that suffices for every loop of the converter whenever the
corresponding source loop terminates: one more than the number of mapping
keys. -/
def convFuel (conv : Conversation) : Nat := (keysOf conv.mapping).length + 1

/-- Acyclicity of the node mapping under `parentId`: the parent chain of
every mapped node exhausts within `size + 1` steps, which for a finite
mapping is exactly the absence of a reachable `parentId` cycle. -/
def ParentAcyclic (m : Mapping) : Prop :=
  ∀ k ∈ keysOf m, (parentChainF m ((keysOf m).length + 1) (some k)).isSome

instance (m : Mapping) : Decidable (ParentAcyclic m) := by
  unfold ParentAcyclic
  infer_instance

/-! ### Lemmas about the node mapping and the parent chain -/

lemma mget_mem_keys {m : Mapping} {k : String} {nd : Node} (h : mget m k = some nd) :
    k ∈ keysOf m := by
  induction m with
  | nil => simp [mget] at h
  | cons kv rest ih =>
    obtain ⟨a, b⟩ := kv
    by_cases hk : k = a
    · simp [keysOf, hk]
    · rw [mget, if_neg hk] at h
      simp only [keysOf, List.map_cons, List.mem_cons]
      exact Or.inr (ih h)

lemma mget_not_mem {m : Mapping} {k : String} (h : k ∉ keysOf m) : mget m k = none := by
  cases hm : mget m k with
  | none => rfl
  | some nd => exact absurd (mget_mem_keys hm) h

lemma parentStep_eq_jstr {m : Mapping} {k : String} {nd : Node} (h : mget m k = some nd) :
    parentStep m k = jstrOrNull nd.parent := by
  cases hp : nd.parent with
  | none => simp [parentStep, h, hp, jstrOrNull, jstr]
  | some p => simp [parentStep, h, hp, jstrOrNull, jstr]

lemma parentChainF_none {m : Mapping} {f : Nat} : parentChainF m f none = some [] := by
  cases f <;> rfl

lemma parentChainF_empty {m : Mapping} {f : Nat} : parentChainF m f (some "") = some [] := by
  cases f <;> rfl

lemma parentChainF_mono {m : Mapping} :
    ∀ {f g : Nat} {s : Option String} {ch : List String}, f ≤ g →
      parentChainF m f s = some ch → parentChainF m g s = some ch := by
  intro f
  induction f with
  | zero =>
    intro g s ch _ h
    match s with
    | none => rw [parentChainF_none] at h ⊢; exact h
    | some id =>
      by_cases hid : id = ""
      · subst hid; rw [parentChainF_empty] at h ⊢; exact h
      · simp [parentChainF, hid] at h
  | succ f ih =>
    intro g s ch hfg h
    match s with
    | none => rw [parentChainF_none] at h ⊢; exact h
    | some id =>
      by_cases hid : id = ""
      · subst hid; rw [parentChainF_empty] at h ⊢; exact h
      · obtain ⟨g', rfl⟩ : ∃ g', g = g' + 1 := ⟨g - 1, by omega⟩
        simp only [parentChainF, if_neg hid, Option.map_eq_some'] at h ⊢
        obtain ⟨t, ht, rfl⟩ := h
        exact ⟨t, ih (by omega) ht, rfl⟩

lemma parentChainF_mem {m : Mapping} :
    ∀ {f : Nat} {s : Option String} {ch : List String},
      parentChainF m f s = some ch → ∀ {k : String}, k ∈ ch →
      ∃ g tail, g ≤ f ∧ parentChainF m g (some k) = some (k :: tail) ∧ tail.length < ch.length := by
  intro f
  induction f with
  | zero =>
    intro s ch h k hk
    match s with
    | none => rw [parentChainF_none] at h; cases h; simp at hk
    | some id =>
      by_cases hid : id = ""
      · subst hid; rw [parentChainF_empty] at h; cases h; simp at hk
      · simp [parentChainF, hid] at h
  | succ f ih =>
    intro s ch h k hk
    match s with
    | none => rw [parentChainF_none] at h; cases h; simp at hk
    | some id =>
      by_cases hid : id = ""
      · subst hid; rw [parentChainF_empty] at h; cases h; simp at hk
      · simp only [parentChainF, if_neg hid, Option.map_eq_some'] at h
        obtain ⟨t, ht, rfl⟩ := h
        rcases List.mem_cons.mp hk with rfl | hkt
        · refine ⟨f + 1, t, le_refl _, ?_, by simp⟩
          simp only [parentChainF, if_neg hid, Option.map_eq_some']
          exact ⟨t, ht, rfl⟩
        · obtain ⟨g, tail, hg, hgc, hlen⟩ := ih ht hkt
          exact ⟨g, tail, by omega, hgc, by simp; omega⟩

lemma parentChainF_nodup {m : Mapping} :
    ∀ {f : Nat} {s : Option String} {ch : List String},
      parentChainF m f s = some ch → ch.Nodup := by
  intro f
  induction f with
  | zero =>
    intro s ch h
    match s with
    | none => rw [parentChainF_none] at h; cases h; simp
    | some id =>
      by_cases hid : id = ""
      · subst hid; rw [parentChainF_empty] at h; cases h; simp
      · simp [parentChainF, hid] at h
  | succ f ih =>
    intro s ch h
    match s with
    | none => rw [parentChainF_none] at h; cases h; simp
    | some id =>
      by_cases hid : id = ""
      · subst hid; rw [parentChainF_empty] at h; cases h; simp
      · simp only [parentChainF, if_neg hid, Option.map_eq_some'] at h
        obtain ⟨t, ht, rfl⟩ := h
        refine List.nodup_cons.mpr ⟨?_, ih ht⟩
        intro hmem
        obtain ⟨g, tail, hg, hgc, hlen⟩ := parentChainF_mem ht hmem
        have h1 : parentChainF m (f + 1) (some id) = some (id :: tail) :=
          parentChainF_mono (by omega) hgc
        have h2 : parentChainF m (f + 1) (some id) = some (id :: t) := by
          simp only [parentChainF, if_neg hid, Option.map_eq_some']
          exact ⟨t, ht, rfl⟩
        rw [h1] at h2
        have : tail = t := by simpa using h2
        subst this
        omega

lemma parentChainF_elem_ne_empty {m : Mapping} :
    ∀ {f : Nat} {s : Option String} {ch : List String},
      parentChainF m f s = some ch → ∀ {k : String}, k ∈ ch → k ≠ "" := by
  intro f
  induction f with
  | zero =>
    intro s ch h k hk
    match s with
    | none => rw [parentChainF_none] at h; cases h; simp at hk
    | some id =>
      by_cases hid : id = ""
      · subst hid; rw [parentChainF_empty] at h; cases h; simp at hk
      · simp [parentChainF, hid] at h
  | succ f ih =>
    intro s ch h k hk
    match s with
    | none => rw [parentChainF_none] at h; cases h; simp at hk
    | some id =>
      by_cases hid : id = ""
      · subst hid; rw [parentChainF_empty] at h; cases h; simp at hk
      · simp only [parentChainF, if_neg hid, Option.map_eq_some'] at h
        obtain ⟨t, ht, rfl⟩ := h
        rcases List.mem_cons.mp hk with rfl | hkt
        · exact hid
        · exact ih ht hkt

lemma parentChainF_acyclic {m : Mapping} (h : ParentAcyclic m) (s : Option String) :
    (parentChainF m ((keysOf m).length + 1) s).isSome := by
  match s with
  | none => rw [parentChainF_none]; rfl
  | some id =>
    by_cases hid : id = ""
    · subst hid; rw [parentChainF_empty]; rfl
    · by_cases hmem : id ∈ keysOf m
      · exact h id hmem
      · have hmg : mget m id = none := mget_not_mem hmem
        have hps : parentStep m id = none := by unfold parentStep; rw [hmg]
        simp [parentChainF, hid, hps, parentChainF_none]

lemma parentChainF_rawParent {m : Mapping} {k : String} {nd : Node}
    (h : mget m k = some nd) (f : Nat) :
    parentChainF m f (rawParent m k) = parentChainF m f (parentStep m k) := by
  have hraw : rawParent m k = nd.parent := by unfold rawParent; rw [h]
  rw [hraw, parentStep_eq_jstr h]
  cases hp : nd.parent with
  | none => rfl
  | some p =>
    by_cases hpe : p = ""
    · subst hpe
      rw [parentChainF_empty]
      simp [jstrOrNull, jstr, parentChainF_none]
    · simp [jstrOrNull, jstr, hpe]

/-! ### Lemmas about the ancestor-resolution walk -/

lemma findIncludedAncestorF_mem {incl : List String} {m : Mapping} :
    ∀ {f : Nat} {s : Option String} {p : String},
      findIncludedAncestorF f s incl m = some (some p) → p ∈ incl := by
  intro f
  induction f with
  | zero =>
    intro s p h
    match s with
    | none => simp [findIncludedAncestorF] at h
    | some id =>
      by_cases hid : id = ""
      · simp [findIncludedAncestorF, hid] at h
      · by_cases hin : id ∈ incl
        · simp only [findIncludedAncestorF, if_neg hid, if_pos hin, Option.some.injEq] at h
          cases h; exact hin
        · simp [findIncludedAncestorF, hid, hin] at h
  | succ f ih =>
    intro s p h
    match s with
    | none => simp [findIncludedAncestorF] at h
    | some id =>
      by_cases hid : id = ""
      · simp [findIncludedAncestorF, hid] at h
      · by_cases hin : id ∈ incl
        · simp only [findIncludedAncestorF, if_neg hid, if_pos hin, Option.some.injEq] at h
          cases h; exact hin
        · rw [findIncludedAncestorF, if_neg hid, if_neg hin] at h
          exact ih h

lemma findIncludedAncestorF_eq_find (incl : List String) {m : Mapping} :
    ∀ {f : Nat} {s : Option String} {ch : List String},
      parentChainF m f s = some ch →
      findIncludedAncestorF f s incl m = some (ch.find? (fun a => decide (a ∈ incl))) := by
  intro f
  induction f with
  | zero =>
    intro s ch h
    match s with
    | none => rw [parentChainF_none] at h; cases h; rfl
    | some id =>
      by_cases hid : id = ""
      · subst hid; rw [parentChainF_empty] at h; cases h; rfl
      · simp [parentChainF, hid] at h
  | succ f ih =>
    intro s ch h
    match s with
    | none => rw [parentChainF_none] at h; cases h; rfl
    | some id =>
      by_cases hid : id = ""
      · subst hid; rw [parentChainF_empty] at h; cases h; rfl
      · simp only [parentChainF, if_neg hid, Option.map_eq_some'] at h
        obtain ⟨t, ht, rfl⟩ := h
        by_cases hin : id ∈ incl
        · rw [findIncludedAncestorF, if_neg hid, if_pos hin]
          simp [List.find?, hin]
        · rw [findIncludedAncestorF, if_neg hid, if_neg hin]
          rw [ih ht]
          simp [List.find?, hin]

lemma findIncludedAncestorF_isSome {incl : List String} {m : Mapping} {f : Nat}
    {s : Option String} (h : (parentChainF m f s).isSome) :
    (findIncludedAncestorF f s incl m).isSome := by
  obtain ⟨ch, hch⟩ := Option.isSome_iff_exists.mp h
  rw [findIncludedAncestorF_eq_find incl hch]
  rfl

lemma getPathToRootF_isSome {m : Mapping} :
    ∀ {f : Nat} {s : Option String} (acc : List String),
      (parentChainF m f s).isSome → (getPathToRootF f s m acc).isSome := by
  intro f
  induction f with
  | zero =>
    intro s acc h
    match s with
    | none => rw [getPathToRootF]; rfl
    | some id =>
      by_cases hid : id = ""
      · rw [getPathToRootF, if_pos hid]; rfl
      · simp [parentChainF, hid] at h
  | succ f ih =>
    intro s acc h
    match s with
    | none => rw [getPathToRootF]; rfl
    | some id =>
      by_cases hid : id = ""
      · rw [getPathToRootF, if_pos hid]; rfl
      · cases hmg : mget m id with
        | none => simp [getPathToRootF, hid, hmg]
        | some nd =>
          simp only [parentChainF, if_neg hid, Option.isSome_map'] at h
          have hstep : getPathToRootF (f + 1) (some id) m acc =
              getPathToRootF f (jstrOrNull nd.parent) m (id :: acc) := by
            simp [getPathToRootF, hid, hmg]
          rw [hstep, ← parentStep_eq_jstr hmg]
          exact ih _ h

/-! ### Lemmas about the guarded traversal -/

lemma filter_length_mono {α : Type} (l : List α) (p q : α → Bool)
    (h : ∀ a, p a = true → q a = true) : (l.filter p).length ≤ (l.filter q).length := by
  induction l with
  | nil => simp
  | cons a t ih =>
    by_cases hp : p a = true
    · rw [List.filter_cons_of_pos hp, List.filter_cons_of_pos (h a hp)]
      simpa using ih
    · rw [List.filter_cons_of_neg (by simpa using hp)]
      by_cases hq : q a = true
      · rw [List.filter_cons_of_pos hq]
        simp
        omega
      · rw [List.filter_cons_of_neg (by simpa using hq)]
        exact ih

lemma filter_length_strict {α : Type} [DecidableEq α] (l : List α) (p q : α → Bool)
    (h : ∀ a, p a = true → q a = true) (x : α) (hx : x ∈ l) (hqx : q x = true)
    (hpx : p x = false) : (l.filter p).length < (l.filter q).length := by
  induction l with
  | nil => simp at hx
  | cons a t ih =>
    rcases List.mem_cons.mp hx with rfl | hxt
    · rw [List.filter_cons_of_neg (by simp [hpx]), List.filter_cons_of_pos hqx]
      simp only [List.length_cons]
      exact Nat.lt_succ_of_le (filter_length_mono t p q h)
    · by_cases hp : p a = true
      · rw [List.filter_cons_of_pos hp, List.filter_cons_of_pos (h a hp)]
        simpa using ih hxt
      · rw [List.filter_cons_of_neg (by simpa using hp)]
        by_cases hq : q a = true
        · rw [List.filter_cons_of_pos hq]
          simp only [List.length_cons]
          exact Nat.lt_succ_of_lt (ih hxt)
        · rw [List.filter_cons_of_neg (by simpa using hq)]
          exact ih hxt

/-- The number of mapping keys not yet in the visited set: the decreasing
measure of the guarded traversal. -/
def unvisited (m : Mapping) (v : List String) : Nat :=
  ((keysOf m).filter (fun k => decide (¬ k ∈ v))).length

lemma unvisited_mono {m : Mapping} {v w : List String} (h : ∀ a, a ∈ v → a ∈ w) :
    unvisited m w ≤ unvisited m v := by
  refine filter_length_mono _ _ _ ?_
  intro a ha
  simp only [decide_eq_true_eq] at ha ⊢
  intro hav
  exact ha (h a hav)

lemma unvisited_cons_lt {m : Mapping} {v : List String} {k : String}
    (hk : k ∈ keysOf m) (hv : ¬ k ∈ v) : unvisited m (k :: v) < unvisited m v := by
  refine filter_length_strict _ _ _ ?_ k hk (by simpa using hv) (by simp)
  intro a ha
  simp only [decide_eq_true_eq, List.mem_cons] at ha ⊢
  intro hav
  exact ha (Or.inr hav)

lemma unvisited_le_keys (m : Mapping) (v : List String) :
    unvisited m v ≤ (keysOf m).length :=
  List.length_filter_le _ _

section ChildLoop

variable {step : String → List String → Option (List String × List String)}

lemma childLoopAux_visited
    (hmono : ∀ c v r, step c v = some r → ∃ u, r.2 = u ++ v) :
    ∀ {cs : List String} {v : List String} {r : List String × List String},
      childLoopAux step cs v = some r → ∃ u, r.2 = u ++ v := by
  intro cs
  induction cs with
  | nil =>
    intro v r h
    rw [childLoopAux] at h
    cases h
    exact ⟨[], rfl⟩
  | cons c rest ih =>
    intro v r h
    rw [childLoopAux] at h
    cases hs : step c v with
    | none => rw [hs] at h; cases h
    | some pv =>
      rw [hs] at h
      obtain ⟨p, v2⟩ := pv
      obtain ⟨u1, hu1⟩ := hmono c v _ hs
      cases hp : p with
      | nil =>
        rw [hp] at h
        obtain ⟨u2, hu2⟩ := ih h
        exact ⟨u2 ++ u1, by simp at hu1; rw [hu2, hu1, List.append_assoc]⟩
      | cons q qs =>
        rw [hp] at h
        cases h
        exact ⟨u1, by simpa using hu1⟩

lemma childLoopAux_isSome (m : Mapping) (bound : Nat)
    (hmono : ∀ c v r, step c v = some r → ∃ u, r.2 = u ++ v)
    (hsome : ∀ c v, unvisited m v ≤ bound → (step c v).isSome) :
    ∀ {cs : List String} {v : List String}, unvisited m v ≤ bound →
      (childLoopAux step cs v).isSome := by
  intro cs
  induction cs with
  | nil => intro v _; rw [childLoopAux]; rfl
  | cons c rest ih =>
    intro v hv
    rw [childLoopAux]
    cases hs : step c v with
    | none =>
      have := hsome c v hv
      rw [hs] at this
      cases this
    | some pv =>
      obtain ⟨p, v2⟩ := pv
      cases hp : p with
      | nil =>
        obtain ⟨u, hu⟩ := hmono c v _ hs
        simp only at hu
        refine ih ?_
        refine le_trans (unvisited_mono ?_) hv
        intro a ha
        rw [hu]
        exact List.mem_append_right _ ha
      | cons q qs => rfl

lemma childLoopAux_fresh
    (hmono : ∀ c v r, step c v = some r → ∃ u, r.2 = u ++ v)
    (hfresh : ∀ c v r, step c v = some r → r.1.Nodup ∧ ∀ x ∈ r.1, ¬ x ∈ v) :
    ∀ {cs : List String} {v : List String} {r : List String × List String},
      childLoopAux step cs v = some r → r.1.Nodup ∧ ∀ x ∈ r.1, ¬ x ∈ v := by
  intro cs
  induction cs with
  | nil =>
    intro v r h
    rw [childLoopAux] at h
    cases h
    simp
  | cons c rest ih =>
    intro v r h
    rw [childLoopAux] at h
    cases hs : step c v with
    | none => rw [hs] at h; cases h
    | some pv =>
      rw [hs] at h
      obtain ⟨p, v2⟩ := pv
      cases hp : p with
      | nil =>
        rw [hp] at h
        obtain ⟨hnd, hfr⟩ := ih h
        refine ⟨hnd, ?_⟩
        intro x hx hxv
        obtain ⟨u, hu⟩ := hmono c v _ hs
        simp only at hu
        exact hfr x hx (by rw [hu]; exact List.mem_append_right _ hxv)
      | cons q qs =>
        rw [hp] at h
        cases h
        have := hfresh c v _ hs
        rw [hp] at this
        exact this

end ChildLoop

lemma traverseF_succ_go {m : Mapping} {f : Nat} {nid : String} {v : List String} {nd : Node}
    (hid : ¬ nid = "") (hv : ¬ nid ∈ v) (hmg : mget m nid = some nd) :
    traverseFromNodeF (f + 1) (some nid) m v =
      (match nd.children with
       | some (c :: cs) =>
         (match childLoopAux (fun ch w => traverseFromNodeF f (some ch) m w) (c :: cs) (nid :: v) with
          | none => none
          | some (p, v2) => some (nid :: p, v2))
       | _ => some ([nid], nid :: v)) := by
  simp [traverseFromNodeF, hid, hv, hmg]

lemma traverseFromNodeF_visited {m : Mapping} :
    ∀ {f : Nat} {n : Option String} {v : List String} {r : List String × List String},
      traverseFromNodeF f n m v = some r → ∃ u, r.2 = u ++ v := by
  intro f
  induction f with
  | zero => intro n v r h; rw [traverseFromNodeF] at h; cases h
  | succ f ih =>
    intro n v r h
    match n with
    | none =>
      simp only [traverseFromNodeF, Option.some.injEq] at h
      cases h; exact ⟨[], rfl⟩
    | some nid =>
      by_cases hid : nid = ""
      · simp only [traverseFromNodeF, if_pos hid, Option.some.injEq] at h
        cases h; exact ⟨[], rfl⟩
      · by_cases hv : nid ∈ v
        · simp only [traverseFromNodeF, if_neg hid, if_pos hv, Option.some.injEq] at h
          cases h; exact ⟨[], rfl⟩
        · cases hmg : mget m nid with
          | none =>
            simp only [traverseFromNodeF, if_neg hid, if_neg hv, hmg, Option.some.injEq] at h
            cases h; exact ⟨[nid], rfl⟩
          | some nd =>
            rw [traverseF_succ_go hid hv hmg] at h
            cases hch : nd.children with
            | none =>
              rw [hch] at h
              simp only [Option.some.injEq] at h
              cases h; exact ⟨[nid], rfl⟩
            | some cl =>
              cases cl with
              | nil =>
                rw [hch] at h
                simp only [Option.some.injEq] at h
                cases h; exact ⟨[nid], rfl⟩
              | cons c cs =>
                rw [hch] at h
                simp only at h
                cases hcl : childLoopAux (fun ch w => traverseFromNodeF f (some ch) m w)
                    (c :: cs) (nid :: v) with
                | none => rw [hcl] at h; cases h
                | some pv =>
                  rw [hcl] at h
                  obtain ⟨p, v2⟩ := pv
                  simp only [Option.some.injEq] at h
                  cases h
                  obtain ⟨u, hu⟩ := childLoopAux_visited (fun c v r hc => ih hc) hcl
                  simp only at hu
                  exact ⟨u ++ [nid], by rw [hu]; simp⟩

lemma traverseFromNodeF_isSome {m : Mapping} :
    ∀ {f : Nat} {n : Option String} {v : List String},
      unvisited m v < f → (traverseFromNodeF f n m v).isSome := by
  intro f
  induction f with
  | zero => intro n v h; omega
  | succ f ih =>
    intro n v h
    match n with
    | none => rw [traverseFromNodeF]; rfl
    | some nid =>
      by_cases hid : nid = ""
      · simp only [traverseFromNodeF, if_pos hid]; rfl
      · by_cases hv : nid ∈ v
        · simp only [traverseFromNodeF, if_neg hid, if_pos hv]; rfl
        · cases hmg : mget m nid with
          | none => simp only [traverseFromNodeF, if_neg hid, if_neg hv, hmg]; rfl
          | some nd =>
            rw [traverseF_succ_go hid hv hmg]
            cases hch : nd.children with
            | none => rfl
            | some cl =>
              cases cl with
              | nil => rfl
              | cons c cs =>
                have hlt : unvisited m (nid :: v) < f :=
                  lt_of_lt_of_le (unvisited_cons_lt (mget_mem_keys hmg) hv) (by omega)
                have hcl : (childLoopAux (fun ch w => traverseFromNodeF f (some ch) m w)
                    (c :: cs) (nid :: v)).isSome := by
                  refine childLoopAux_isSome m (unvisited m (nid :: v))
                    (fun c v r hc => traverseFromNodeF_visited hc) ?_ (le_refl _)
                  intro c w hw
                  exact ih (lt_of_le_of_lt hw hlt)
                obtain ⟨pv, hpv⟩ := Option.isSome_iff_exists.mp hcl
                obtain ⟨p, v2⟩ := pv
                simp only [hpv]
                rfl

lemma traverseFromNodeF_fresh {m : Mapping} :
    ∀ {f : Nat} {n : Option String} {v : List String} {r : List String × List String},
      traverseFromNodeF f n m v = some r → r.1.Nodup ∧ ∀ x ∈ r.1, ¬ x ∈ v := by
  intro f
  induction f with
  | zero => intro n v r h; rw [traverseFromNodeF] at h; cases h
  | succ f ih =>
    intro n v r h
    match n with
    | none =>
      simp only [traverseFromNodeF, Option.some.injEq] at h
      cases h; simp
    | some nid =>
      by_cases hid : nid = ""
      · simp only [traverseFromNodeF, if_pos hid, Option.some.injEq] at h
        cases h; simp
      · by_cases hv : nid ∈ v
        · simp only [traverseFromNodeF, if_neg hid, if_pos hv, Option.some.injEq] at h
          cases h; simp
        · cases hmg : mget m nid with
          | none =>
            simp only [traverseFromNodeF, if_neg hid, if_neg hv, hmg, Option.some.injEq] at h
            cases h; simp
          | some nd =>
            rw [traverseF_succ_go hid hv hmg] at h
            cases hch : nd.children with
            | none =>
              rw [hch] at h
              simp only [Option.some.injEq] at h
              cases h
              exact ⟨List.nodup_singleton _, by simpa using hv⟩
            | some cl =>
              cases cl with
              | nil =>
                rw [hch] at h
                simp only [Option.some.injEq] at h
                cases h
                exact ⟨List.nodup_singleton _, by simpa using hv⟩
              | cons c cs =>
                rw [hch] at h
                simp only at h
                cases hcl : childLoopAux (fun ch w => traverseFromNodeF f (some ch) m w)
                    (c :: cs) (nid :: v) with
                | none => rw [hcl] at h; cases h
                | some pv =>
                  rw [hcl] at h
                  obtain ⟨p, v2⟩ := pv
                  simp only [Option.some.injEq] at h
                  cases h
                  obtain ⟨hnd, hfr⟩ := childLoopAux_fresh
                    (fun c v r hc => traverseFromNodeF_visited hc)
                    (fun c v r hc => ih hc) hcl
                  simp only at hnd hfr
                  constructor
                  · refine List.nodup_cons.mpr ⟨?_, hnd⟩
                    intro hmem
                    exact hfr nid hmem (List.mem_cons_self _ _)
                  · intro x hx
                    rcases List.mem_cons.mp hx with rfl | hxp
                    · exact hv
                    · intro hxv
                      exact hfr x hxp (List.mem_cons_of_mem _ hxv)

/-! ### Lemmas about path reconstruction -/

lemma dedupFirst_aux_nodup :
    ∀ (l acc : List String), acc.Nodup →
      (l.foldl (fun acc x => if x ∈ acc then acc else acc ++ [x]) acc).Nodup := by
  intro l
  induction l with
  | nil => intro acc h; exact h
  | cons a t ih =>
    intro acc h
    simp only [List.foldl_cons]
    by_cases ha : a ∈ acc
    · rw [if_pos ha]; exact ih acc h
    · rw [if_neg ha]
      refine ih _ (List.Nodup.append h (List.nodup_singleton a) ?_)
      intro x hx hxa
      rw [List.mem_singleton] at hxa
      subst hxa
      exact ha hx

lemma dedupFirst_nodup (l : List String) : (dedupFirst l).Nodup :=
  dedupFirst_aux_nodup l [] (List.nodup_nil)

lemma expandLoopF_isSome {m : Mapping} {fuel : Nat} (hf : (keysOf m).length < fuel) :
    ∀ (path acc : List String), (expandLoopF fuel path m acc).isSome := by
  intro path
  induction path with
  | nil => intro acc; rw [expandLoopF]; rfl
  | cons nodeId rest ih =>
    intro acc
    rw [expandLoopF]
    cases hmg : mget m nodeId with
    | none => simp only; exact ih _
    | some nd =>
      simp only
      cases hch : nd.children with
      | none => simp only; exact ih _
      | some cl =>
        cases cl with
        | nil => simp only; exact ih _
        | cons c cs =>
          simp only
          have ht : (traverseFromNodeF fuel (some c) m (acc ++ [nodeId])).isSome :=
            traverseFromNodeF_isSome (lt_of_le_of_lt (unvisited_le_keys m _) hf)
          obtain ⟨pv, hpv⟩ := Option.isSome_iff_exists.mp ht
          obtain ⟨p, v2⟩ := pv
          rw [hpv]
          rfl

lemma reconstructMessagePathF_isSome {conv : Conversation} (h : ParentAcyclic conv.mapping) :
    (reconstructMessagePathF (convFuel conv) conv).isSome := by
  have hfuel : (keysOf conv.mapping).length < convFuel conv := by
    unfold convFuel; omega
  have htrav : ∀ s : Option String,
      (traverseFromNodeF (convFuel conv) s conv.mapping []).isSome :=
    fun _ => traverseFromNodeF_isSome (lt_of_le_of_lt (unvisited_le_keys _ _) hfuel)
  rw [reconstructMessagePathF]
  by_cases hemp : conv.mapping.isEmpty
  · rw [if_pos hemp]; rfl
  · rw [if_neg hemp]
    cases hr : findRootNodes conv.mapping with
    | nil => rfl
    | cons r rs =>
      simp only
      cases hcn : conv.current_node with
      | none => simp only [Option.isSome_map']; exact htrav _
      | some cn =>
        simp only
        split
        · have hchain : (parentChainF conv.mapping (convFuel conv) (some cn)).isSome :=
            parentChainF_acyclic h _
          have hroot : (getPathToRootF (convFuel conv) (some cn) conv.mapping []).isSome :=
            getPathToRootF_isSome _ hchain
          obtain ⟨p, hp⟩ := Option.isSome_iff_exists.mp hroot
          rw [hp]
          simp only [expandPathF]
          have := expandLoopF_isSome hfuel p []
          obtain ⟨q, hq⟩ := Option.isSome_iff_exists.mp this
          rw [hq]
          rfl
        · simp only [Option.isSome_map']
          exact htrav _

lemma reconstructMessagePathF_nodup {conv : Conversation} {f : Nat} {p : List String}
    (h : reconstructMessagePathF f conv = some p) : p.Nodup := by
  have htrav : ∀ s : Option String,
      (traverseFromNodeF f s conv.mapping []).map Prod.fst = some p → p.Nodup := by
    intro s hs
    obtain ⟨pv, hpv, hfst⟩ := Option.map_eq_some'.mp hs
    subst hfst
    exact (traverseFromNodeF_fresh hpv).1
  rw [reconstructMessagePathF] at h
  by_cases hemp : conv.mapping.isEmpty
  · rw [if_pos hemp] at h; cases h; simp
  · rw [if_neg hemp] at h
    cases hr : findRootNodes conv.mapping with
    | nil => rw [hr] at h; cases h; simp
    | cons r rs =>
      rw [hr] at h
      simp only at h
      cases hcn : conv.current_node with
      | none => rw [hcn] at h; exact htrav _ h
      | some cn =>
        rw [hcn] at h
        simp only at h
        split at h
        · cases hroot : getPathToRootF f (some cn) conv.mapping [] with
          | none => rw [hroot] at h; cases h
          | some q =>
            rw [hroot] at h
            simp only [expandPathF] at h
            obtain ⟨l, _, hl⟩ := Option.map_eq_some'.mp h
            subst hl
            exact dedupFirst_nodup l
        · exact htrav _ h

/-! ### Lemmas about filtering and re-linking -/

lemma filterNode_cases {conv : Conversation} {a : String} {r : String × QwenMessage}
    (h : filterNode conv a = some r) :
    r.1 = a ∧ (mget conv.mapping a).isSome := by
  unfold filterNode at h
  cases hmg : mget conv.mapping a with
  | none => rw [hmg] at h; cases h
  | some nd =>
    rw [hmg] at h
    simp only at h
    cases hm : nd.message with
    | none => rw [hm] at h; cases h
    | some msg =>
      rw [hm] at h
      simp only at h
      by_cases hrole : normalizeRole msg.role = "user" ∨ normalizeRole msg.role = "assistant"
      · rw [if_pos hrole] at h
        by_cases htext : extractContent (some msg) = ""
        · rw [if_pos htext] at h; cases h
        · rw [if_neg htext] at h
          cases h
          exact ⟨rfl, rfl⟩
      · rw [if_neg hrole] at h; cases h

lemma filterNodes_keys_sublist (conv : Conversation) :
    ∀ ids : List String, List.Sublist ((filterNodes conv ids).map Prod.fst) ids := by
  intro ids
  induction ids with
  | nil => simp [filterNodes]
  | cons a t ih =>
    rw [filterNodes, List.filterMap_cons]
    cases hf : filterNode conv a with
    | none => exact List.Sublist.cons _ ih
    | some r =>
      rw [List.map_cons, (filterNode_cases hf).1]
      exact List.Sublist.cons₂ _ ih

lemma filterNodes_mem {conv : Conversation} {ids : List String} {kv : String × QwenMessage}
    (h : kv ∈ filterNodes conv ids) : (mget conv.mapping kv.1).isSome := by
  rw [filterNodes] at h
  obtain ⟨a, _, hf⟩ := List.mem_filterMap.mp h
  obtain ⟨hk, hmg⟩ := filterNode_cases hf
  rw [← hk] at hmg
  exact hmg

lemma filteredPairsF_keys_nodup {fuel : Nat} {conv : Conversation}
    {fpairs : List (String × QwenMessage)} (h : filteredPairsF fuel conv = some fpairs) :
    (fpairs.map Prod.fst).Nodup := by
  rw [filteredPairsF] at h
  obtain ⟨ids, hids, hmap⟩ := Option.map_eq_some'.mp h
  subst hmap
  exact List.Nodup.sublist (filterNodes_keys_sublist conv ids) (reconstructMessagePathF_nodup hids)

lemma resolveListF_isSome {fuel : Nat} {m : Mapping} {incl : List String} :
    ∀ {l : List String},
      (∀ k ∈ l, (findIncludedAncestorF fuel (rawParent m k) incl m).isSome) →
      (resolveListF fuel m incl l).isSome := by
  intro l
  induction l with
  | nil => intro _; rw [resolveListF]; rfl
  | cons k rest ih =>
    intro hall
    rw [resolveListF]
    obtain ⟨r, hr⟩ := Option.isSome_iff_exists.mp (hall k (List.mem_cons_self _ _))
    rw [hr]
    obtain ⟨rs, hrs⟩ := Option.isSome_iff_exists.mp
      (ih (fun x hx => hall x (List.mem_cons_of_mem _ hx)))
    rw [hrs]
    rfl

lemma resolveListF_spec {fuel : Nat} {m : Mapping} {incl : List String} :
    ∀ {l : List String} {res : List (String × Option String)},
      resolveListF fuel m incl l = some res →
      res.map Prod.fst = l ∧
      ∀ e ∈ res, findIncludedAncestorF fuel (rawParent m e.1) incl m = some e.2 := by
  intro l
  induction l with
  | nil =>
    intro res h
    rw [resolveListF] at h
    cases h
    exact ⟨rfl, by simp⟩
  | cons k rest ih =>
    intro res h
    rw [resolveListF] at h
    cases hr : findIncludedAncestorF fuel (rawParent m k) incl m with
    | none => rw [hr] at h; cases h
    | some r =>
      rw [hr] at h
      cases hrs : resolveListF fuel m incl rest with
      | none => rw [hrs] at h; cases h
      | some rs =>
        rw [hrs] at h
        cases h
        obtain ⟨hmap, hall⟩ := ih hrs
        refine ⟨by simp [hmap], ?_⟩
        intro e he
        rcases List.mem_cons.mp he with rfl | het
        · exact hr
        · exact hall e het

lemma alookup_of_mem_nodup {α : Type} :
    ∀ {l : List (String × α)} {k : String} {v : α},
      (k, v) ∈ l → (l.map Prod.fst).Nodup → alookup l k = some v := by
  intro l
  induction l with
  | nil => intro k v h _; simp at h
  | cons kv rest ih =>
    intro k v h hnd
    obtain ⟨a, b⟩ := kv
    rw [List.map_cons, List.nodup_cons] at hnd
    rcases List.mem_cons.mp h with heq | hmem
    · cases heq
      rw [alookup, if_pos rfl]
    · by_cases hk : k = a
      · subst hk
        exact absurd (by simpa using List.mem_map_of_mem Prod.fst hmem) hnd.1
      · rw [alookup, if_neg hk]
        exact ih hmem hnd.2

lemma alookup_base {incl : List String} {k : String} (h : k ∈ incl) :
    alookup (incl.map (fun k => (k, ([] : List String)))) k = some [] := by
  induction incl with
  | nil => simp at h
  | cons a t ih =>
    rcases List.mem_cons.mp h with rfl | hmem
    · rw [List.map_cons, alookup, if_pos rfl]
    · by_cases hk : k = a
      · subst hk; rw [List.map_cons, alookup, if_pos rfl]
      · rw [List.map_cons, alookup, if_neg hk]
        exact ih hmem

lemma pushChild_cons_pos {a p c : String} {b : List String}
    {rest : List (String × List String)} (h : a = p) :
    pushChild ((a, b) :: rest) p c = (a, b ++ [c]) :: pushChild rest p c := by
  simp [pushChild, h]

lemma pushChild_cons_neg {a p c : String} {b : List String}
    {rest : List (String × List String)} (h : ¬ a = p) :
    pushChild ((a, b) :: rest) p c = (a, b) :: pushChild rest p c := by
  simp [pushChild, h]

lemma alookup_pushChild {acc : List (String × List String)} {p c k : String} :
    alookup (pushChild acc p c) k =
      if k = p then (alookup acc k).map (fun l => l ++ [c]) else alookup acc k := by
  induction acc with
  | nil => by_cases hk : k = p <;> simp [pushChild, alookup, hk]
  | cons kv rest ih =>
    obtain ⟨a, b⟩ := kv
    by_cases hap : a = p
    · rw [pushChild_cons_pos hap]
      subst hap
      by_cases hk : k = a
      · subst hk
        simp [alookup]
      · simp [alookup, hk, ih]
    · rw [pushChild_cons_neg hap]
      by_cases hk : k = a
      · subst hk
        simp [alookup, hap]
      · simp [alookup, hk, ih]

/-- The occurrence list selected by the second re-linking loop for a given
parent key: the survivors whose resolved parent is that key, in order. -/
def childrenFor (resolved : List (String × Option String)) (k : String) : List String :=
  resolved.filterMap (fun e =>
    match e.2 with
    | some p => if p = k then some e.1 else none
    | none => none)

lemma foldl_childAccumStep {incl : List String} {k : String} (hk : k ∈ incl) :
    ∀ (resolved : List (String × Option String)) (acc : List (String × List String))
      (cur : List String), alookup acc k = some cur →
      alookup (resolved.foldl (childAccumStep incl) acc) k = some (cur ++ childrenFor resolved k) := by
  intro resolved
  induction resolved with
  | nil => intro acc cur h; simpa [childrenFor] using h
  | cons e t ih =>
    intro acc cur h
    obtain ⟨c, rp⟩ := e
    rw [List.foldl_cons]
    cases hrp : rp with
    | none =>
      have hstep : childAccumStep incl acc (c, none) = acc := by
        simp [childAccumStep]
      rw [hstep]
      rw [ih acc cur h]
      simp [childrenFor]
    | some p =>
      by_cases hpin : p ∈ incl
      · have hstep : childAccumStep incl acc (c, some p) = pushChild acc p c := by
          simp [childAccumStep, hpin]
        rw [hstep]
        by_cases hpk : p = k
        · subst hpk
          have hlook : alookup (pushChild acc p c) p = some (cur ++ [c]) := by
            rw [alookup_pushChild, if_pos rfl, h]
            rfl
          rw [ih _ _ hlook]
          simp [childrenFor, List.append_assoc]
        · have hlook : alookup (pushChild acc p c) k = some cur := by
            rw [alookup_pushChild, if_neg (fun hkp => hpk hkp.symm)]
            exact h
          rw [ih _ _ hlook]
          simp [childrenFor, hpk]
      · have hstep : childAccumStep incl acc (c, some p) = acc := by
          simp [childAccumStep, hpin]
        rw [hstep]
        rw [ih acc cur h]
        have hpk : ¬ p = k := fun hpk => hpin (hpk ▸ hk)
        simp [childrenFor, hpk]

lemma childAccum_lookup {incl : List String} {resolved : List (String × Option String)}
    {k : String} (hk : k ∈ incl) :
    alookup (childAccum incl resolved) k = some (childrenFor resolved k) := by
  rw [childAccum]
  have := foldl_childAccumStep hk resolved (incl.map (fun k => (k, []))) [] (alookup_base hk)
  simpa using this

lemma filter_map_fst {α β : Type} :
    ∀ (l : List (α × β)) (p : α × β → Bool) (q : α → Bool),
      (∀ kv ∈ l, p kv = q kv.1) →
      (l.filter p).map Prod.fst = (l.map Prod.fst).filter q := by
  intro l
  induction l with
  | nil => intro p q _; simp
  | cons kv t ih =>
    intro p q hpq
    rw [List.map_cons]
    by_cases hp : p kv = true
    · rw [List.filter_cons_of_pos hp, List.filter_cons_of_pos (by rw [← hpq kv (by simp)]; exact hp)]
      rw [List.map_cons]
      rw [ih p q (fun x hx => hpq x (List.mem_cons_of_mem _ hx))]
    · rw [List.filter_cons_of_neg (by simpa using hp),
        List.filter_cons_of_neg (by rw [← hpq kv (by simp)]; simpa using hp)]
      exact ih p q (fun x hx => hpq x (List.mem_cons_of_mem _ hx))

/-! ### Characterisation of the re-linked survivors -/

lemma relinkedPairsF_spec {fuel : Nat} {conv : Conversation} {pairs : List (String × QwenMessage)}
    (h : relinkedPairsF fuel conv = some pairs) :
    ∃ fpairs resolved, filteredPairsF fuel conv = some fpairs ∧
      resolveAllF fuel conv.mapping (fpairs.map Prod.fst) = some resolved ∧
      pairs = fpairs.map (fun kv =>
        (kv.1,
          { kv.2 with
            parentId := (alookup resolved kv.1).join
            childrenIds := (alookup (childAccum (fpairs.map Prod.fst) resolved) kv.1).getD [] })) := by
  rw [relinkedPairsF] at h
  cases hf : filteredPairsF fuel conv with
  | none => rw [hf] at h; cases h
  | some fpairs =>
    rw [hf] at h
    simp only [relinkNodesF] at h
    cases hres : resolveAllF fuel conv.mapping (fpairs.map Prod.fst) with
    | none => rw [hres] at h; cases h
    | some resolved =>
      rw [hres] at h
      simp only [Option.some.injEq] at h
      exact ⟨fpairs, resolved, rfl, hres, h.symm⟩

lemma relinked_keys_eq {fuel : Nat} {conv : Conversation} {pairs : List (String × QwenMessage)}
    (h : relinkedPairsF fuel conv = some pairs) :
    ∃ fpairs, filteredPairsF fuel conv = some fpairs ∧
      pairs.map Prod.fst = fpairs.map Prod.fst := by
  obtain ⟨fpairs, resolved, hf, hres, hpairs⟩ := relinkedPairsF_spec h
  exact ⟨fpairs, hf, by subst hpairs; simp⟩

lemma relinked_keys_nodup {fuel : Nat} {conv : Conversation} {pairs : List (String × QwenMessage)}
    (h : relinkedPairsF fuel conv = some pairs) : (pairs.map Prod.fst).Nodup := by
  obtain ⟨fpairs, hf, hkeys⟩ := relinked_keys_eq h
  rw [hkeys]
  exact filteredPairsF_keys_nodup hf

lemma relinked_entry {fuel : Nat} {conv : Conversation} {pairs : List (String × QwenMessage)}
    (h : relinkedPairsF fuel conv = some pairs) {k : String} {msg : QwenMessage}
    (hmem : (k, msg) ∈ pairs) :
    (mget conv.mapping k).isSome ∧
    ∃ resolved, resolveAllF fuel conv.mapping (pairs.map Prod.fst) = some resolved ∧
      findIncludedAncestorF fuel (rawParent conv.mapping k) (pairs.map Prod.fst) conv.mapping
        = some msg.parentId ∧
      msg.childrenIds = childrenFor resolved k ∧
      alookup resolved k = some msg.parentId := by
  obtain ⟨fpairs, resolved, hf, hres, hpairs⟩ := relinkedPairsF_spec h
  have hkeys : pairs.map Prod.fst = fpairs.map Prod.fst := by
    subst hpairs; simp
  have hnodup : (fpairs.map Prod.fst).Nodup := filteredPairsF_keys_nodup hf
  subst hpairs
  obtain ⟨⟨k0, msg0⟩, hkv0, heq⟩ := List.mem_map.mp hmem
  simp only [Prod.mk.injEq] at heq
  obtain ⟨hk0, hmsg0⟩ := heq
  subst hk0
  have hkincl : k0 ∈ fpairs.map Prod.fst := List.mem_map_of_mem Prod.fst hkv0
  have hmg : (mget conv.mapping k0).isSome := by
    rw [filteredPairsF] at hf
    obtain ⟨ids, hids, hfp⟩ := Option.map_eq_some'.mp hf
    subst hfp
    exact filterNodes_mem hkv0
  rw [resolveAllF] at hres
  obtain ⟨hresfst, hresall⟩ := resolveListF_spec hres
  have hknres : k0 ∈ resolved.map Prod.fst := by rw [hresfst]; exact hkincl
  obtain ⟨⟨k1, v⟩, hkv1, hfst1⟩ := List.mem_map.mp hknres
  simp only at hfst1
  subst hfst1
  have hlook : alookup resolved k1 = some v :=
    alookup_of_mem_nodup hkv1 (by rw [hresfst]; exact hnodup)
  have hfind : findIncludedAncestorF fuel (rawParent conv.mapping k1)
      (fpairs.map Prod.fst) conv.mapping = some v := hresall _ hkv1
  have hchild : alookup (childAccum (fpairs.map Prod.fst) resolved) k1
      = some (childrenFor resolved k1) := childAccum_lookup hkincl
  refine ⟨hmg, resolved, ?_, ?_, ?_, ?_⟩
  · rw [hkeys, resolveAllF]; exact hres
  · rw [hkeys, ← hmsg0]
    simp only [hlook, Option.join]
    exact hfind
  · rw [← hmsg0]
    simp only [hchild, Option.getD_some]
  · rw [← hmsg0]
    simp only [hlook, Option.join]
    rfl

lemma childrenFor_eq_filter :
    ∀ {res : List (String × Option String)}, (res.map Prod.fst).Nodup → ∀ k,
      childrenFor res k
        = (res.map Prod.fst).filter (fun c => decide (alookup res c = some (some k))) := by
  intro res
  induction res with
  | nil => intro _ k; simp [childrenFor]
  | cons e t ih =>
    intro hnd k
    obtain ⟨c, rp⟩ := e
    rw [List.map_cons, List.nodup_cons] at hnd
    have hhead : alookup ((c, rp) :: t) c = some rp := by rw [alookup, if_pos rfl]
    have htail : ∀ a ∈ t.map Prod.fst,
        (fun c2 => decide (alookup ((c, rp) :: t) c2 = some (some k))) a
          = (fun c2 => decide (alookup t c2 = some (some k))) a := by
      intro a ha
      have hac : ¬ a = c := fun hac => hnd.1 (hac ▸ ha)
      simp only [alookup, if_neg hac]
    rw [List.map_cons]
    cases rp with
    | none =>
      rw [List.filter_cons_of_neg (by simp [hhead])]
      rw [List.filter_congr htail, ← ih hnd.2 k]
      simp [childrenFor]
    | some p =>
      by_cases hpk : p = k
      · subst hpk
        rw [List.filter_cons_of_pos (by simp [hhead])]
        rw [List.filter_congr htail, ← ih hnd.2 p]
        simp [childrenFor]
      · rw [List.filter_cons_of_neg (by simp [hhead, hpk])]
        rw [List.filter_congr htail, ← ih hnd.2 k]
        simp [childrenFor, hpk]

/-! ### Termination of the whole conversion on acyclic mappings -/

lemma resolveAllF_isSome_of_acyclic {conv : Conversation} (h : ParentAcyclic conv.mapping)
    (incl : List String) : (resolveAllF (convFuel conv) conv.mapping incl).isSome := by
  rw [resolveAllF]
  refine resolveListF_isSome ?_
  intro k _
  exact findIncludedAncestorF_isSome (parentChainF_acyclic h _)

lemma relinkedPairsF_isSome_of_acyclic {conv : Conversation} (h : ParentAcyclic conv.mapping) :
    (relinkedPairsF (convFuel conv) conv).isSome := by
  rw [relinkedPairsF]
  have hre := reconstructMessagePathF_isSome h
  obtain ⟨ids, hids⟩ := Option.isSome_iff_exists.mp hre
  have hf : filteredPairsF (convFuel conv) conv = some (filterNodes conv ids) := by
    rw [filteredPairsF, hids]
    rfl
  rw [hf]
  simp only [relinkNodesF]
  obtain ⟨resolved, hres⟩ := Option.isSome_iff_exists.mp
    (resolveAllF_isSome_of_acyclic h ((filterNodes conv ids).map Prod.fst))
  rw [hres]
  rfl

lemma transformConversationF_isSome_of_acyclic {conv : Conversation}
    (h : ParentAcyclic conv.mapping) (idx : Nat) :
    (transformConversationF (convFuel conv) conv idx).isSome := by
  rw [transformConversationF]
  obtain ⟨pairs, hp⟩ := Option.isSome_iff_exists.mp (relinkedPairsF_isSome_of_acyclic h)
  rw [hp]
  rfl

lemma transformConversationF_spec {fuel : Nat} {conv : Conversation} {idx : Nat}
    {out : OutputConversation} (h : transformConversationF fuel conv idx = some out) :
    ∃ pairs, relinkedPairsF fuel conv = some pairs ∧
      out = assembleOutput conv idx (pairs.map Prod.snd) := by
  rw [transformConversationF] at h
  cases hp : relinkedPairsF fuel conv with
  | none => rw [hp] at h; cases h
  | some pairs =>
    rw [hp] at h
    simp only [Option.some.injEq] at h
    exact ⟨pairs, rfl, h.symm⟩

lemma childrenFor_mem {resolved : List (String × Option String)} {k c : String}
    (h : c ∈ childrenFor resolved k) : c ∈ resolved.map Prod.fst := by
  rw [childrenFor] at h
  obtain ⟨e, he, hce⟩ := List.mem_filterMap.mp h
  cases hrp : e.2 with
  | none => rw [hrp] at hce; cases hce
  | some p =>
    rw [hrp] at hce
    simp only at hce
    by_cases hpk : p = k
    · rw [if_pos hpk] at hce
      cases hce
      exact List.mem_map_of_mem Prod.fst he
    · rw [if_neg hpk] at hce; cases hce

/-! ### Facts about the timestamp normalizer and the metadata builder -/

lemma jsFloor_ne_nan {n : JSNum} (h : n ≠ JSNum.nan) : jsFloor n ≠ JSNum.nan := by
  cases n with
  | nan => exact absurd rfl h
  | inf b => simp [jsFloor]
  | fin q => simp [jsFloor]

lemma sanitizeTimestamp_ne_nan (v : JSVal) : sanitizeTimestamp v ≠ some JSNum.nan := by
  cases v with
  | num n =>
    by_cases hn : n = JSNum.nan
    · simp [sanitizeTimestamp, hn]
    · simp only [sanitizeTimestamp, if_neg hn]
      intro hc
      exact jsFloor_ne_nan hn (by simpa using hc)
  | str s =>
    by_cases hp : parseFloat s = JSNum.nan
    · simp [sanitizeTimestamp, hp]
    · simp only [sanitizeTimestamp, if_neg hp]
      intro hc
      exact jsFloor_ne_nan hp (by simpa using hc)
  | jnull => simp [sanitizeTimestamp]
  | undef => simp [sanitizeTimestamp]
  | other => simp [sanitizeTimestamp]

lemma buildMeta_tags (x : Option JSNum) : (buildMeta x).tags = [] := by
  simp only [buildMeta]
  split
  · split <;> rfl
  · rfl

lemma buildMeta_timestamp_some {n : JSNum} (hnan : n ≠ JSNum.nan) (hz : n ≠ JSNum.fin 0) :
    (buildMeta (some n)).timestamp = some (jsMul1000 n) := by
  have ht : jsNumTruthy (jsMul1000 n) = true := by
    cases n with
    | nan => exact absurd rfl hnan
    | inf b => rfl
    | fin q =>
      have hq : q ≠ 0 := fun hq => hz (by rw [hq])
      simp [jsMul1000, jsNumTruthy, hq]
  simp [buildMeta, hnan, ht]

lemma buildMeta_timestamp_none_of_null : (buildMeta none).timestamp = none := rfl

lemma buildMeta_timestamp_none_of_zero : (buildMeta (some (JSNum.fin 0))).timestamp = none := by
  simp [buildMeta, jsMul1000, jsNumTruthy]

/-! ### Characterisation of `expandPath` -/

/-- The first child of a node when its children field is a non-empty
array. -/
def firstChildOf (m : Mapping) (id : String) : Option String :=
  match mget m id with
  | some nd =>
    match nd.children with
    | some (c :: _) => some c
    | _ => none
  | none => none

/-- Split an ancestor path at the first node that has a first child: the
kept prefix (up to and including that node) and that node's first child. -/
def splitAtChild (m : Mapping) : List String → List String × Option String
  | [] => ([], none)
  | id :: rest =>
    match firstChildOf m id with
    | some c => ([id], some c)
    | none =>
      let pr := splitAtChild m rest
      (id :: pr.1, pr.2)

lemma splitAtChild_prefix (m : Mapping) :
    ∀ l : List String, ∃ suf, l = (splitAtChild m l).1 ++ suf := by
  intro l
  induction l with
  | nil => exact ⟨[], rfl⟩
  | cons id rest ih =>
    rw [splitAtChild]
    cases hfc : firstChildOf m id with
    | some c => exact ⟨rest, rfl⟩
    | none =>
      obtain ⟨suf, hsuf⟩ := ih
      exact ⟨suf, congrArg (List.cons id) hsuf⟩

lemma expandLoopF_eq_split {m : Mapping} {fuel : Nat} :
    ∀ (path acc : List String),
      expandLoopF fuel path m acc =
        (match splitAtChild m path with
         | (pre, none) => some (acc ++ pre)
         | (pre, some c) =>
           (traverseFromNodeF fuel (some c) m (acc ++ pre)).map (fun r => acc ++ pre ++ r.1)) := by
  intro path
  induction path with
  | nil => intro acc; simp [expandLoopF, splitAtChild]
  | cons id rest ih =>
    intro acc
    rw [expandLoopF, splitAtChild]
    cases hmg : mget m id with
    | none =>
      have hfc : firstChildOf m id = none := by simp [firstChildOf, hmg]
      rw [hfc]
      simp only
      rw [ih (acc ++ [id])]
      cases hsp : splitAtChild m rest with
      | mk pre r =>
        cases r with
        | none => simp
        | some c => simp
    | some nd =>
      simp only
      cases hch : nd.children with
      | none =>
        have hfc : firstChildOf m id = none := by simp [firstChildOf, hmg, hch]
        rw [hfc]
        simp only
        rw [ih (acc ++ [id])]
        cases hsp : splitAtChild m rest with
        | mk pre r =>
          cases r with
          | none => simp
          | some c => simp
      | some cl =>
        cases cl with
        | nil =>
          have hfc : firstChildOf m id = none := by simp [firstChildOf, hmg, hch]
          rw [hfc]
          simp only
          rw [ih (acc ++ [id])]
          cases hsp : splitAtChild m rest with
          | mk pre r =>
            cases r with
            | none => simp
            | some c => simp
        | cons c cs =>
          have hfc : firstChildOf m id = some c := by simp [firstChildOf, hmg, hch]
          rw [hfc]
          simp only
          cases htr : traverseFromNodeF fuel (some c) m (acc ++ [id]) with
          | none => rfl
          | some r =>
            obtain ⟨p, v2⟩ := r
            simp

/-! ### Concrete conversations used to exercise the converter -/

/-- Build a message whose content is a list of parts. -/
def mkMsg (mid : Option String) (role : Option String) (parts : List ContentPart) : Message :=
  { id := mid, role := role, content := some ⟨some parts⟩,
    create_time := JSVal.jnull, model_slug := none }

/-- Build a mapping node. -/
def mkNode (nid : Option String) (parent : Option String) (children : List String)
    (msg : Option Message) : Node :=
  { id := nid, parent := parent, children := some children, message := msg }

/-- Build a conversation with default metadata fields. -/
def mkConv (mapping : Mapping) (current : Option String) : Conversation :=
  { mapping := mapping, current_node := current,
    create_time := JSVal.jnull, update_time := JSVal.undef,
    title := none, conversation_id := none, convId := none, default_model_slug := none }

/-- A conversation whose declared current node sits on a cyclic `parentId`
chain (`x -> y -> x`) while a well-formed root also exists. -/
def cyclicConv : Conversation :=
  mkConv
    [ ("r", some (mkNode (some "r") none [] none)),
      ("x", some (mkNode (some "x") (some "y") [] none)),
      ("y", some (mkNode (some "y") (some "x") [] none)) ]
    (some "x")

/-- The linear scenario of the specification: root `r` (no message), then
user `a` ("hi"), assistant `b` ("hello"), system `c` ("ignored"),
assistant `d` ("bye"), with `d` as the current node. -/
def convC5 : Conversation :=
  { mkConv
      [ ("r", some (mkNode (some "r") none ["a"] none)),
        ("a", some (mkNode (some "a") (some "r") ["b"]
          (some (mkMsg (some "a") (some "user") [ContentPart.pstr "hi"])))),
        ("b", some (mkNode (some "b") (some "a") ["c"]
          (some (mkMsg (some "b") (some "assistant") [ContentPart.pstr "hello"])))),
        ("c", some (mkNode (some "c") (some "b") ["d"]
          (some (mkMsg (some "c") (some "system") [ContentPart.pstr "ignored"])))),
        ("d", some (mkNode (some "d") (some "c") []
          (some (mkMsg (some "d") (some "assistant") [ContentPart.pstr "bye"])))) ]
      (some "d") with
    create_time := JSVal.num (JSNum.fin 5) }

/-! ### C1 -/

lemma cyclic_getPathToRoot :
    ∀ (f : Nat) (acc : List String),
      getPathToRootF f (some "x") cyclicConv.mapping acc = none ∧
      getPathToRootF f (some "y") cyclicConv.mapping acc = none := by
  intro f
  induction f with
  | zero => intro acc; exact ⟨rfl, rfl⟩
  | succ f ih =>
    intro acc
    refine ⟨?_, ?_⟩
    · have hstep : getPathToRootF (f + 1) (some "x") cyclicConv.mapping acc
          = getPathToRootF f (some "y") cyclicConv.mapping ("x" :: acc) := rfl
      rw [hstep]
      exact (ih _).2
    · have hstep : getPathToRootF (f + 1) (some "y") cyclicConv.mapping acc
          = getPathToRootF f (some "x") cyclicConv.mapping ("y" :: acc) := rfl
      rw [hstep]
      exact (ih _).1

lemma cyclic_findIncludedAncestor :
    ∀ f : Nat,
      findIncludedAncestorF f (some "x") [] cyclicConv.mapping = none ∧
      findIncludedAncestorF f (some "y") [] cyclicConv.mapping = none := by
  intro f
  induction f with
  | zero => exact ⟨rfl, rfl⟩
  | succ f ih =>
    refine ⟨?_, ?_⟩
    · have hstep : findIncludedAncestorF (f + 1) (some "x") [] cyclicConv.mapping
          = findIncludedAncestorF f (some "y") [] cyclicConv.mapping := rfl
      rw [hstep]
      exact ih.2
    · have hstep : findIncludedAncestorF (f + 1) (some "y") [] cyclicConv.mapping
          = findIncludedAncestorF f (some "x") [] cyclicConv.mapping := rfl
      rw [hstep]
      exact ih.1

/-- C1: the conversion does NOT terminate on every conversation record.
On `cyclicConv` — whose declared current node `x` sits on the cyclic
parent chain `x -> y -> x` — the unguarded `while` loop of
`getPathToRoot` (and hence the whole conversion), as well as the
ancestor-skipping walk of `findIncludedAncestor` started on that chain,
never exit: the fuelled embedding returns `none` for every fuel, which is
exactly a non-terminating run of the source loops.  The specification
requires termination with a structurally valid output here, so the code
contradicts it. -/
theorem c1_conversion_diverges_on_cyclic_parent_chain :
    (∀ fuel : Nat, transformConversationF fuel cyclicConv 0 = none) ∧
    (∀ fuel : Nat, findIncludedAncestorF fuel (some "x") [] cyclicConv.mapping = none) := by
  constructor
  · intro fuel
    have h1 : reconstructMessagePathF fuel cyclicConv = none := by
      have hs : reconstructMessagePathF fuel cyclicConv
          = (match getPathToRootF fuel (some "x") cyclicConv.mapping [] with
             | none => none
             | some p => expandPathF fuel p cyclicConv.mapping) := rfl
      rw [hs, (cyclic_getPathToRoot fuel []).1]
    have h2 : filteredPairsF fuel cyclicConv = none := by
      rw [filteredPairsF, h1]
      rfl
    have h3 : relinkedPairsF fuel cyclicConv = none := by
      rw [relinkedPairsF, h2]
    rw [transformConversationF, h3]
  · intro fuel
    exact (cyclic_findIncludedAncestor fuel).1

/-! ### C5 -/

/-- C5: on the linear scenario conversation the converter keeps exactly
the user/assistant messages `a`, `b`, `d` in order (the system node `c`
is filtered), re-links `d`'s parent to `b` across the removed `c`, and
sets `currentId` and `currentResponseIds` to `d`. -/
theorem c5_linear_scenario_output :
    (transformConversationF 20 convC5 0).map
      (fun o => (o.messages.map (fun m => (m.role, m.id)),
                 o.messages.map (fun m => m.parentId),
                 o.currentId,
                 o.currentResponseIds))
      = some ([("user", some "a"), ("assistant", some "b"), ("assistant", some "d")],
              [none, some "a", some "b"],
              some "d", ["d"]) := by
  rfl

/-! ### C6 -/

/-- C6 counterexample: the role string `"system"` is neither `"user"` nor
`"assistant"`, yet role normalization returns it unchanged instead of
defaulting to `"assistant"`, refuting the claim as stated. -/
theorem c6_system_role_counterexample :
    normalizeRole (some "system") = "system" ∧
    normalizeRole (some "system") ≠ "assistant" := by
  exact ⟨rfl, by decide⟩

/-- C6 amended: role normalization returns every non-empty role string
unchanged (`"user"` and `"assistant"` included); only a missing or empty
role defaults to `"assistant"`.  Unrecognized non-empty roles are
therefore filtered out by the caller rather than treated as assistant. -/
theorem c6_role_normalization_amended :
    (∀ s : String, s ≠ "" → normalizeRole (some s) = s) ∧
    normalizeRole none = "assistant" ∧
    normalizeRole (some "") = "assistant" := by
  refine ⟨?_, rfl, rfl⟩
  intro s hs
  by_cases h1 : s = "user"
  · subst h1; rfl
  · by_cases h2 : s = "assistant"
    · subst h2; rfl
    · simp [normalizeRole, h1, h2, hs]

/-- Witness for the amended C6 theorem at the concrete role `"system"`. -/
theorem c6_role_normalization_amended_witness :
    ("system" : String) ≠ "" ∧ normalizeRole (some "system") = "system" :=
  ⟨by decide, c6_role_normalization_amended.1 "system" (by decide)⟩

/-! ### C8 -/

/-- C8 counterexample: `sanitizeTimestamp` only rejects `NaN`, not the
infinities — on the non-finite number `Infinity` it returns `Infinity`
(`Math.floor` fixes it) instead of the `null` the claim demands. -/
theorem c8_sanitize_infinity_counterexample :
    sanitizeTimestamp (JSVal.num (JSNum.inf false)) = some (JSNum.inf false) ∧
    sanitizeTimestamp (JSVal.num (JSNum.inf false)) ≠ none := by
  exact ⟨rfl, by decide⟩

/-- C8 amended: the timestamp normalizer never throws (it is a total
function) and returns the floor of any non-`NaN` number — the infinities
pass through unchanged — the floor of `parseFloat` of a string whenever
that parse is not `NaN`, and `null` for `NaN`, unparseable strings,
`null`, `undefined` and any other value. -/
theorem c8_sanitize_timestamp_amended :
    (∀ q : ℚ, sanitizeTimestamp (JSVal.num (JSNum.fin q))
      = some (JSNum.fin ((Int.floor q : ℤ) : ℚ))) ∧
    (∀ b : Bool, sanitizeTimestamp (JSVal.num (JSNum.inf b)) = some (JSNum.inf b)) ∧
    sanitizeTimestamp (JSVal.num JSNum.nan) = none ∧
    (∀ s : String, parseFloat s = JSNum.nan → sanitizeTimestamp (JSVal.str s) = none) ∧
    (∀ s : String, parseFloat s ≠ JSNum.nan →
      sanitizeTimestamp (JSVal.str s) = some (jsFloor (parseFloat s))) ∧
    sanitizeTimestamp JSVal.jnull = none ∧
    sanitizeTimestamp JSVal.undef = none ∧
    sanitizeTimestamp JSVal.other = none := by
  refine ⟨?_, ?_, rfl, ?_, ?_, rfl, rfl, rfl⟩
  · intro q
    simp [sanitizeTimestamp, jsFloor]
  · intro b
    simp [sanitizeTimestamp, jsFloor]
  · intro s hs
    simp [sanitizeTimestamp, hs]
  · intro s hs
    simp [sanitizeTimestamp, hs]

unseal Rat.add Rat.mul Rat.inv in
/-- Witness for the amended C8 theorem at the concrete strings `"abc"`
(unparseable) and `"3.7"` (parsed and floored to 3). -/
theorem c8_sanitize_timestamp_amended_witness :
    parseFloat "abc" = JSNum.nan ∧
    sanitizeTimestamp (JSVal.str "abc") = none ∧
    parseFloat "3.7" ≠ JSNum.nan ∧
    sanitizeTimestamp (JSVal.str "3.7") = some (JSNum.fin 3) := by
  have h1 : parseFloat "abc" = JSNum.nan := by decide
  have h2 : parseFloat "3.7" ≠ JSNum.nan := by decide
  refine ⟨h1, c8_sanitize_timestamp_amended.2.2.2.1 "abc" h1, h2, ?_⟩
  have h3 := c8_sanitize_timestamp_amended.2.2.2.2.1 "3.7" h2
  rw [h3]
  decide

/-! ### C9 -/

/-- An assistant message whose only content part is an asset pointer with
no text field. -/
def assetMsg : Message := mkMsg (some "n") (some "assistant") [ContentPart.pobj none true]

/-- A conversation holding only the asset-pointer assistant message. -/
def convC9 : Conversation :=
  mkConv [("n", some (mkNode (some "n") none [] (some assetMsg)))] none

/-- C9: content extraction returns the empty string when the payload, its
content object or an array parts list is missing; otherwise it joins the
per-part emissions with newlines and trims: plain strings verbatim,
object text fields verbatim, the `"[Asset]"` placeholder for an asset
pointer without text, nothing for any other part.  In particular the
asset-pointer assistant message extracts to exactly `"[Asset]"` and is
kept by the conversion as a non-empty message. -/
theorem c9_content_extraction :
    extractContent none = "" ∧
    (∀ m : Message, m.content = none → extractContent (some m) = "") ∧
    (∀ m : Message, ∀ c : ContentObj, m.content = some c → c.parts = none →
      extractContent (some m) = "") ∧
    (∀ m : Message, ∀ c : ContentObj, ∀ parts : List ContentPart,
      m.content = some c → c.parts = some parts →
      extractContent (some m) = jsTrim (String.intercalate "\n" (parts.filterMap emitPart))) ∧
    (∀ s : String, emitPart (ContentPart.pstr s) = some s) ∧
    (∀ s : String, ∀ b : Bool, emitPart (ContentPart.pobj (some s) b) = some s) ∧
    emitPart (ContentPart.pobj none true) = some "[Asset]" ∧
    emitPart (ContentPart.pobj none false) = none ∧
    emitPart ContentPart.pother = none ∧
    extractContent (some assetMsg) = "[Asset]" ∧
    (transformConversationF 10 convC9 0).map
      (fun o => o.messages.map (fun m => (m.role, m.content_list.map (fun e => e.content))))
      = some [("assistant", ["[Asset]"])] := by
  refine ⟨rfl, ?_, ?_, ?_, fun s => rfl, fun s b => rfl, rfl, rfl, rfl, rfl, rfl⟩
  · intro m hm
    simp [extractContent, hm]
  · intro m c hm hc
    simp [extractContent, hm, hc]
  · intro m c parts hm hc
    simp [extractContent, hm, hc]

/-- Witness for the C9 theorem: the parts branch applied at the concrete
asset-pointer message. -/
theorem c9_content_extraction_witness :
    extractContent (some assetMsg)
      = jsTrim (String.intercalate "\n" ([ContentPart.pobj none true].filterMap emitPart)) :=
  c9_content_extraction.2.2.2.1 assetMsg ⟨some [ContentPart.pobj none true]⟩
    [ContentPart.pobj none true] rfl rfl

/-! ### C10 -/

/-- C10: every produced record's `meta` carries `tags = []`, and carries
a `timestamp` equal to the normalized create timestamp multiplied by 1000
(milliseconds) exactly when that product is a truthy number; a null or
zero normalized create timestamp leaves `meta` without a timestamp
field.  (The normalizer never yields `NaN`, so "truthy" is exactly
"non-zero".) -/
theorem c10_meta_timestamp (fuel : Nat) (conv : Conversation) (idx : Nat)
    (out : OutputConversation) (h : transformConversationF fuel conv idx = some out) :
    out.meta.tags = [] ∧
    (∀ n : JSNum, sanitizeTimestamp conv.create_time = some n → n ≠ JSNum.fin 0 →
      out.meta.timestamp = some (jsMul1000 n)) ∧
    (sanitizeTimestamp conv.create_time = none → out.meta.timestamp = none) ∧
    (sanitizeTimestamp conv.create_time = some (JSNum.fin 0) → out.meta.timestamp = none) := by
  obtain ⟨pairs, hrel, hout⟩ := transformConversationF_spec h
  subst hout
  have hmeta : (assembleOutput conv idx (pairs.map Prod.snd)).meta
      = buildMeta (sanitizeTimestamp conv.create_time) := rfl
  rw [hmeta]
  refine ⟨buildMeta_tags _, ?_, ?_, ?_⟩
  · intro n hn hz
    rw [hn]
    exact buildMeta_timestamp_some
      (fun hnan => sanitizeTimestamp_ne_nan conv.create_time (hnan ▸ hn)) hz
  · intro hn
    rw [hn]
    rfl
  · intro hn
    rw [hn]
    exact buildMeta_timestamp_none_of_zero

/-- A conversation with an empty node mapping and create timestamp 5. -/
def convC10 : Conversation := { mkConv [] none with create_time := JSVal.num (JSNum.fin 5) }

unseal Rat.add Rat.mul Rat.inv in
/-- Witness for the C10 theorem at a conversation whose create timestamp
normalizes to the non-zero number 5: meta carries 5000 milliseconds. -/
theorem c10_meta_timestamp_witness :
    sanitizeTimestamp convC10.create_time = some (JSNum.fin 5) ∧
    JSNum.fin 5 ≠ JSNum.fin 0 ∧
    (assembleOutput convC10 0 []).meta.timestamp = some (jsMul1000 (JSNum.fin 5)) := by
  have h0 : sanitizeTimestamp convC10.create_time = some (JSNum.fin 5) := by decide
  have htr : transformConversationF 1 convC10 0 = some (assembleOutput convC10 0 []) := rfl
  exact ⟨h0, by decide, (c10_meta_timestamp 1 convC10 0 _ htr).2.1 (JSNum.fin 5) h0 (by decide)⟩

/-! ### C7 -/

/-- A conversation whose last (assistant) message has the empty string as
its projected id. -/
def convC7x : Conversation :=
  mkConv
    [ ("k1", some (mkNode (some "k1") none ["k2"]
        (some (mkMsg (some "u1") (some "user") [ContentPart.pstr "hi"])))),
      ("k2", some (mkNode (some "") (some "k1") []
        (some (mkMsg (some "") (some "assistant") [ContentPart.pstr "yo"])))) ]
    none

/-- C7 counterexample: the last message is an assistant message whose
projected id is the (falsy) empty string, so `currentId` becomes `null`
instead of that id, and `currentResponseIds` is empty even though the
chosen current message is an assistant message — refuting the claim as
stated. -/
theorem c7_falsy_id_counterexample :
    (transformConversationF 10 convC7x 0).map
      (fun o => (o.messages.map (fun m => (m.role, m.id)), o.currentId, o.currentResponseIds))
      = some ([("user", some "u1"), ("assistant", some "")], none, []) ∧
    (some "" : Option String) ≠ none := by
  exact ⟨rfl, by decide⟩

/-- C7 amended: `currentId` is the id of the last assistant message if
one exists, else of the last message overall, except that a falsy
(absent or empty) id yields `null`; `currentResponseIds` is the singleton
`[currentId]` exactly when `currentId` is non-null and an assistant
message exists (the chosen message is then that assistant), and empty
otherwise; and an empty node mapping yields empty messages, null
`currentId`, empty `currentResponseIds` and null `models`. -/
theorem c7_current_pointers_amended (fuel : Nat) (conv : Conversation) (idx : Nat)
    (out : OutputConversation) (h : transformConversationF fuel conv idx = some out) :
    out.currentId = jstrOrNull
      ((match lastAssistantOf out.messages with
        | some a => some a
        | none => out.messages.getLast?).bind (fun m => m.id)) ∧
    out.currentResponseIds =
      (match out.currentId, lastAssistantOf out.messages with
       | some c, some _ => [c]
       | _, _ => []) ∧
    (conv.mapping = [] → out.messages = [] ∧ out.currentId = none ∧
      out.currentResponseIds = [] ∧ out.models = none) := by
  obtain ⟨pairs, hrel, hout⟩ := transformConversationF_spec h
  subst hout
  refine ⟨rfl, rfl, ?_⟩
  intro hmap
  have h1 : reconstructMessagePathF fuel conv = some [] := by
    rw [reconstructMessagePathF]
    simp [hmap]
  have h2 : filteredPairsF fuel conv = some [] := by
    rw [filteredPairsF, h1]
    rfl
  have hrel2 : relinkedPairsF fuel conv = some [] := by
    rw [relinkedPairsF, h2]
    rfl
  rw [hrel] at hrel2
  have hp : pairs = [] := Option.some.inj hrel2
  subst hp
  exact ⟨rfl, rfl, rfl, rfl⟩

/-- The empty conversation used to witness the amended C7 theorem. -/
def convEmptyC7 : Conversation := mkConv [] none

/-- Witness for the amended C7 theorem at the empty conversation. -/
theorem c7_current_pointers_amended_witness :
    (assembleOutput convEmptyC7 0 []).messages = [] ∧
    (assembleOutput convEmptyC7 0 []).currentId = none ∧
    (assembleOutput convEmptyC7 0 []).currentResponseIds = [] ∧
    (assembleOutput convEmptyC7 0 []).models = none :=
  (c7_current_pointers_amended 1 convEmptyC7 0 (assembleOutput convEmptyC7 0 []) rfl).2.2 rfl

/-! ### C3 -/

/-- A conversation whose message ids (`m1`, `m2`) differ from its mapping
keys (`k1`, `k2`). -/
def convC3 : Conversation :=
  mkConv
    [ ("k1", some (mkNode none none ["k2"]
        (some (mkMsg (some "m1") (some "user") [ContentPart.pstr "hi"])))),
      ("k2", some (mkNode none (some "k1") []
        (some (mkMsg (some "m2") (some "assistant") [ContentPart.pstr "yo"])))) ]
    none

/-- C3 counterexample: re-linking wires `parentId`/`childrenIds` with node
mapping keys, while the projected message ids fall back to
`message.id || node.id`.  When those differ, the produced `parentId`
(`"k1"`) and children entry (`"k2"`) match no sibling OutputMessage's id
field (`"m1"`, `"m2"`), refuting the claim as stated. -/
theorem c3_adjacency_counterexample :
    (transformConversationF 10 convC3 0).map
      (fun o => (o.messages.map (fun m => m.id),
                 o.messages.map (fun m => m.parentId),
                 o.messages.map (fun m => m.childrenIds)))
      = some ([some "m1", some "m2"], [none, some "k1"], [["k2"], []]) ∧
    (some "k1" : Option String) ∉ [some "m1", some "m2"] ∧
    ("k2" : String) ∉ ["m1", "m2"] := by
  exact ⟨rfl, by decide, by decide⟩

/-- C3 amended: each produced message's `parentId` is null or the mapping
key of another surviving message, and each `childrenIds` entry is the
mapping key of a surviving sibling; when every surviving message's
projected id equals its mapping key — as in standard exports — the
original claim's property holds: `parentId` and `childrenIds` then
reference sibling id fields. -/
theorem c3_adjacency_amended (fuel : Nat) (conv : Conversation) (idx : Nat)
    (out : OutputConversation) (pairs : List (String × QwenMessage))
    (h : transformConversationF fuel conv idx = some out)
    (hrel : relinkedPairsF fuel conv = some pairs)
    (hid : ∀ kv ∈ pairs, kv.2.id = some kv.1) :
    ∀ msg ∈ out.messages,
      (msg.parentId = none ∨ ∃ msg2 ∈ out.messages, msg2.id = msg.parentId) ∧
      (∀ c ∈ msg.childrenIds, ∃ msg2 ∈ out.messages, msg2.id = some c) := by
  obtain ⟨pairs2, hrel2, hout⟩ := transformConversationF_spec h
  rw [hrel] at hrel2
  have hp : pairs = pairs2 := Option.some.inj hrel2
  subst hp
  subst hout
  intro msg hmsg
  have hmsg2 : msg ∈ pairs.map Prod.snd := hmsg
  obtain ⟨⟨k, msg'⟩, hkv, hsnd⟩ := List.mem_map.mp hmsg2
  simp only at hsnd
  subst hsnd
  obtain ⟨hmg, resolved, hres, hfind, hchild, hlook⟩ := relinked_entry hrel hkv
  constructor
  · cases hpid : msg'.parentId with
    | none => exact Or.inl rfl
    | some p =>
      right
      rw [hpid] at hfind
      have hpmem : p ∈ pairs.map Prod.fst := findIncludedAncestorF_mem hfind
      obtain ⟨⟨p2, msgp⟩, hkvp, hfp⟩ := List.mem_map.mp hpmem
      have hp2 : p2 = p := hfp
      refine ⟨msgp, List.mem_map_of_mem Prod.snd hkvp, ?_⟩
      have hidp := hid (p2, msgp) hkvp
      simp only at hidp
      rw [hidp, hp2]
  · intro c hc
    rw [hchild] at hc
    have hcmem : c ∈ resolved.map Prod.fst := childrenFor_mem hc
    rw [resolveAllF] at hres
    have hfst := (resolveListF_spec hres).1
    rw [hfst] at hcmem
    obtain ⟨⟨c2, msgc⟩, hkvc, hfc⟩ := List.mem_map.mp hcmem
    have hc2 : c2 = c := hfc
    refine ⟨msgc, List.mem_map_of_mem Prod.snd hkvc, ?_⟩
    have hidc := hid (c2, msgc) hkvc
    simp only at hidc
    rw [hidc, hc2]

/-- A one-node conversation whose message id equals its mapping key. -/
def convC3w : Conversation :=
  mkConv
    [ ("w1", some (mkNode (some "w1") none []
        (some (mkMsg (some "w1") (some "user") [ContentPart.pstr "hey"])))) ]
    none

/-- The single re-linked output message of `convC3w`. -/
def c3wMsg : QwenMessage :=
  { id := some "w1", role := "user", content := "hey", parentId := none, childrenIds := [],
    timestamp := none, model := none, modelName := none, models := [], content_list := [] }

/-- Witness for the amended C3 theorem at the one-message conversation
whose id equals its key. -/
theorem c3_adjacency_amended_witness :
    c3wMsg.parentId = none ∨
      ∃ msg2 ∈ (assembleOutput convC3w 0 [c3wMsg]).messages, msg2.id = c3wMsg.parentId := by
  have hpairs : relinkedPairsF 10 convC3w = some [("w1", c3wMsg)] := rfl
  have htr : transformConversationF 10 convC3w 0
      = some (assembleOutput convC3w 0 ([("w1", c3wMsg)].map Prod.snd)) := rfl
  have h := c3_adjacency_amended 10 convC3w 0 _ [("w1", c3wMsg)] htr hpairs (by decide)
  exact (h c3wMsg (List.mem_singleton_self c3wMsg)).1

/-! ### C4 -/

/-- A conversation whose declared current node `b` is the second child of
the root, off the first-child spine. -/
def convC4 : Conversation :=
  mkConv
    [ ("r", some (mkNode (some "r") none ["a", "b"] none)),
      ("a", some (mkNode (some "a") (some "r") []
        (some (mkMsg (some "a") (some "user") [ContentPart.pstr "one"])))),
      ("b", some (mkNode (some "b") (some "r") []
        (some (mkMsg (some "b") (some "user") [ContentPart.pstr "two"])))) ]
    (some "b")

/-- C4 counterexample: the declared current node `b` is present in the
mapping, but `expandPath` stops appending ancestor-path nodes at the
first node with children (the root) and descends into the root's first
child `a`, so the reconstructed path is `[r, a]`: it contains neither
the whole ancestor path `[r, b]` nor the declared current node `b`,
refuting the claim as stated. -/
theorem c4_current_node_dropped_counterexample :
    convC4.current_node = some "b" ∧
    (mget convC4.mapping "b").isSome = true ∧
    getPathToRootF 10 (some "b") convC4.mapping [] = some ["r", "b"] ∧
    reconstructMessagePathF 10 convC4 = some ["r", "a"] ∧
    ("b" : String) ∉ ["r", "a"] := by
  exact ⟨rfl, rfl, rfl, rfl, by decide⟩

/-- C4 amended: with a declared, truthy, mapped current node and a
terminating root walk, the canonical path consists of the ancestor path
only up to and including its first node that has a first child (the
whole ancestor path when none has), followed — when such a node exists —
by the first-child-biased descent from that first child with the kept
prefix as the initial visited set, deduplicated in first-seen order.
Ancestor-path nodes after the first branching node are dropped unless the
descent reaches them, so the declared current node may be absent. -/
theorem c4_path_reconstruction_amended (fuel : Nat) (conv : Conversation) (cn : String)
    (hcn : conv.current_node = some cn) (hne : cn ≠ "")
    (hmg : (mget conv.mapping cn).isSome = true)
    (hemp : conv.mapping.isEmpty = false)
    (r : String) (rs : List String) (hroots : findRootNodes conv.mapping = r :: rs)
    (out : List String) (h : reconstructMessagePathF fuel conv = some out) :
    ∃ anc suf, getPathToRootF fuel (some cn) conv.mapping [] = some anc ∧
      anc = (splitAtChild conv.mapping anc).1 ++ suf ∧
      ((splitAtChild conv.mapping anc).2 = none ∧
         out = dedupFirst (splitAtChild conv.mapping anc).1 ∨
       ∃ c p v, (splitAtChild conv.mapping anc).2 = some c ∧
         traverseFromNodeF fuel (some c) conv.mapping (splitAtChild conv.mapping anc).1
           = some (p, v) ∧
         out = dedupFirst ((splitAtChild conv.mapping anc).1 ++ p)) := by
  rw [reconstructMessagePathF] at h
  rw [if_neg (by rw [hemp]; exact Bool.false_ne_true)] at h
  rw [hroots] at h
  simp only at h
  rw [hcn] at h
  simp only at h
  rw [if_pos ⟨hne, hmg⟩] at h
  cases hroot : getPathToRootF fuel (some cn) conv.mapping [] with
  | none => rw [hroot] at h; cases h
  | some anc =>
    rw [hroot] at h
    simp only at h
    obtain ⟨suf, hsuf⟩ := splitAtChild_prefix conv.mapping anc
    refine ⟨anc, suf, rfl, hsuf, ?_⟩
    unfold expandPathF at h
    rw [expandLoopF_eq_split] at h
    cases hsp : splitAtChild conv.mapping anc with
    | mk pre ropt =>
      rw [hsp] at h hsuf
      simp only at h hsuf ⊢
      cases ropt with
      | none =>
        simp only [List.nil_append, Option.map_some'] at h
        exact Or.inl ⟨rfl, (Option.some.inj h).symm⟩
      | some c =>
        simp only [List.nil_append] at h
        cases htr : traverseFromNodeF fuel (some c) conv.mapping pre with
        | none => rw [htr] at h; cases h
        | some pv =>
          rw [htr] at h
          obtain ⟨p, v⟩ := pv
          simp only [Option.map_map, Option.map_some'] at h
          refine Or.inr ⟨c, p, v, rfl, htr, ?_⟩
          simpa using h.symm

/-- Witness for the amended C4 theorem at the linear scenario
conversation, whose current node is `d`. -/
theorem c4_path_reconstruction_amended_witness :
    ∃ anc suf, getPathToRootF 20 (some "d") convC5.mapping [] = some anc ∧
      anc = (splitAtChild convC5.mapping anc).1 ++ suf ∧
      ((splitAtChild convC5.mapping anc).2 = none ∧
         ["r", "a", "b", "c", "d"] = dedupFirst (splitAtChild convC5.mapping anc).1 ∨
       ∃ c p v, (splitAtChild convC5.mapping anc).2 = some c ∧
         traverseFromNodeF 20 (some c) convC5.mapping (splitAtChild convC5.mapping anc).1
           = some (p, v) ∧
         ["r", "a", "b", "c", "d"] = dedupFirst ((splitAtChild convC5.mapping anc).1 ++ p)) :=
  c4_path_reconstruction_amended 20 convC5 "d" rfl (by decide) rfl rfl "r" [] rfl
    ["r", "a", "b", "c", "d"] rfl

/-! ### C2 -/

/-- C2: on every conversation whose node mapping is acyclic under
`parentId`, the conversion terminates (with the canonical fuel) and the
re-linked survivors are consistent: every surviving node's resolved
parent is null or the key of another surviving node — namely the first
surviving id found walking up the original parent chain, null when that
chain exhausts — and every surviving node's children list holds exactly
the surviving nodes whose resolved parent is it, in the order of the
filtered sequence. -/
theorem c2_relink_consistency (conv : Conversation) (idx : Nat)
    (h : ParentAcyclic conv.mapping) :
    ∃ out pairs, transformConversationF (convFuel conv) conv idx = some out ∧
      relinkedPairsF (convFuel conv) conv = some pairs ∧
      out.messages = pairs.map Prod.snd ∧
      ∀ kv ∈ pairs,
        (kv.2.parentId = none ∨
          ∃ p, p ∈ pairs.map Prod.fst ∧ p ≠ kv.1 ∧ kv.2.parentId = some p) ∧
        (∃ ch, parentChainF conv.mapping (convFuel conv) (rawParent conv.mapping kv.1)
            = some ch ∧
          kv.2.parentId = ch.find? (fun a => decide (a ∈ pairs.map Prod.fst))) ∧
        kv.2.childrenIds =
          (pairs.filter (fun kv2 => decide (kv2.2.parentId = some kv.1))).map Prod.fst := by
  obtain ⟨out, hout⟩ := Option.isSome_iff_exists.mp (transformConversationF_isSome_of_acyclic h idx)
  obtain ⟨pairs, hrel, houteq⟩ := transformConversationF_spec hout
  refine ⟨out, pairs, hout, hrel, by rw [houteq]; rfl, ?_⟩
  intro kv hkv
  obtain ⟨k, msg⟩ := kv
  simp only
  obtain ⟨hmg, resolved, hres, hfind, hchild, hlook⟩ := relinked_entry hrel hkv
  have hres0 := hres
  obtain ⟨ch, hch⟩ := Option.isSome_iff_exists.mp
    (parentChainF_acyclic h (rawParent conv.mapping k))
  have hch' : parentChainF conv.mapping (convFuel conv) (rawParent conv.mapping k)
      = some ch := hch
  have hfind2 := findIncludedAncestorF_eq_find (pairs.map Prod.fst) hch'
  rw [hfind] at hfind2
  have hpid : msg.parentId = ch.find? (fun a => decide (a ∈ pairs.map Prod.fst)) :=
    Option.some.inj hfind2
  obtain ⟨nd, hnd⟩ := Option.isSome_iff_exists.mp hmg
  have hknotch : ¬ k ∈ ch := by
    by_cases hke : k = ""
    · intro hmem
      exact (parentChainF_elem_ne_empty hch' hmem) hke
    · intro hmem
      obtain ⟨chk, hchk⟩ := Option.isSome_iff_exists.mp (h k (mget_mem_keys hnd))
      simp only [parentChainF, if_neg hke, Option.map_eq_some'] at hchk
      obtain ⟨t, ht, hchkt⟩ := hchk
      have hch2 : parentChainF conv.mapping ((keysOf conv.mapping).length + 1)
          (parentStep conv.mapping k) = some ch := by
        rw [← parentChainF_rawParent hnd]
        exact hch'
      have ht2 : parentChainF conv.mapping ((keysOf conv.mapping).length + 1)
          (parentStep conv.mapping k) = some t :=
        parentChainF_mono (Nat.le_succ _) ht
      have hcht : ch = t := by
        rw [hch2] at ht2
        exact Option.some.inj ht2
      have hnodup : chk.Nodup := @parentChainF_nodup conv.mapping
        ((keysOf conv.mapping).length + 1) (some k) chk
        (by simp only [parentChainF, if_neg hke, Option.map_eq_some']; exact ⟨t, ht, hchkt⟩)
      rw [← hchkt] at hnodup
      rw [List.nodup_cons] at hnodup
      exact hnodup.1 (by rw [← hcht]; exact hmem)
  refine ⟨?_, ⟨ch, hch', hpid⟩, ?_⟩
  · cases hpc : msg.parentId with
    | none => exact Or.inl rfl
    | some p =>
      right
      rw [hpc] at hpid
      have hfs : ch.find? (fun a => decide (a ∈ pairs.map Prod.fst)) = some p := hpid.symm
      have hpmem : p ∈ ch := List.mem_of_find?_eq_some hfs
      have hppred := List.find?_some hfs
      exact ⟨p, of_decide_eq_true (by simpa using hppred), fun hpk => hknotch (hpk ▸ hpmem),
        rfl⟩
  · rw [hchild]
    rw [resolveAllF] at hres
    have hspec := resolveListF_spec hres
    have hfstr : resolved.map Prod.fst = pairs.map Prod.fst := hspec.1
    have hndk : (pairs.map Prod.fst).Nodup := relinked_keys_nodup hrel
    have hndr : (resolved.map Prod.fst).Nodup := by rw [hfstr]; exact hndk
    have hpq : ∀ kv2 ∈ pairs,
        decide (kv2.2.parentId = some k)
          = (fun c => decide (alookup resolved c = some (some k))) kv2.1 := by
      intro kv2 hkv2
      obtain ⟨_, resolved2, hres2, _, _, hlook2⟩ := relinked_entry hrel hkv2
      have hre : resolved2 = resolved := by
        rw [hres0] at hres2
        exact (Option.some.inj hres2).symm
      subst hre
      simp only
      refine decide_eq_decide.mpr ?_
      rw [hlook2]
      simp
    rw [filter_map_fst pairs (fun kv2 => decide (kv2.2.parentId = some k))
      (fun c => decide (alookup resolved c = some (some k))) hpq]
    rw [← hfstr]
    rw [← childrenFor_eq_filter hndr k]

/-- Witness for the C2 theorem at the acyclic linear-scenario
conversation. -/
theorem c2_relink_consistency_witness :
    ParentAcyclic convC5.mapping ∧
    (∃ out pairs, transformConversationF (convFuel convC5) convC5 0 = some out ∧
      relinkedPairsF (convFuel convC5) convC5 = some pairs ∧
      out.messages = pairs.map Prod.snd ∧
      ∀ kv ∈ pairs,
        (kv.2.parentId = none ∨
          ∃ p, p ∈ pairs.map Prod.fst ∧ p ≠ kv.1 ∧ kv.2.parentId = some p) ∧
        (∃ ch, parentChainF convC5.mapping (convFuel convC5) (rawParent convC5.mapping kv.1)
            = some ch ∧
          kv.2.parentId = ch.find? (fun a => decide (a ∈ pairs.map Prod.fst))) ∧
        kv.2.childrenIds =
          (pairs.filter (fun kv2 => decide (kv2.2.parentId = some kv.1))).map Prod.fst) :=
  ⟨by decide, c2_relink_consistency convC5 0 (by decide)⟩

end ChatgptToQwen
